import Mathlib

/-!
Verification of the Obsidian vault manager (`app/shared/vault/manager.py`).

The Python source is shallowly embedded: paths are modelled as lists of
segments of an absolute POSIX path, file contents as `List Char` / `String`,
and the filesystem (where an operation needs one) as an explicit structure
threaded through the operation.  Machine-level concerns (symlinks, encodings
beyond ASCII where noted, timestamps) are outside the model; `Path.resolve()`
is modelled as purely lexical normalisation of a symlink-free tree.
-/

namespace Vault

/-! ## Path guard (`VaultManager.validate_path`, manager.py lines 137-156)

A Python `Path` is modelled as the list of its segments; the vault root is an
absolute, already-resolved path, so it is just a segment list.  `Path(s)`
drops empty segments and `"."` segments but keeps `".."`; `resolve()` (with
no symlinks) folds `".."` against the accumulated prefix, staying at the
root when there is nothing left to pop. -/

/-- Error kinds of the vault exception taxonomy (`exceptions.py`). -/
inductive VaultErr where
  | pathTraversal
  | noteNotFound
  | noteExists
  | folderNotFound
  | folderExists
  | folderNotEmpty
  | prefsParse
  deriving Repr, DecidableEq

/-- Segments of `Path(s)`: split on the separator, dropping empty and `"."`
segments exactly as `pathlib` does (`".."` is kept). -/
def pathSegs (s : String) : List String :=
  ((s.data.splitOn '/').filter (fun seg => seg != [] && seg != ['.'])).map List.asString

/-- Whether the string denotes an absolute path (`pathlib`: leading slash). -/
def isAbsPath (s : String) : Bool :=
  match s.data with
  | c :: _ => c = '/'
  | [] => false

/-- One step of lexical `resolve()`: `".."` pops the last segment (staying at
the filesystem root when there is none), any other segment is appended. -/
def resolveStep (acc : List String) (seg : String) : List String :=
  if seg = ".." then acc.dropLast else acc ++ [seg]

/-- Lexical `Path.resolve()` on the segments of an absolute path (the model
has no symlinks, so resolution is pure `..`-normalisation). -/
def resolveSegs (segs : List String) : List String :=
  segs.foldl resolveStep []

/-- The join `self.vault_path / path`: a `pathlib` join discards the left
operand when the right operand is absolute. -/
def pyJoin (vault : List String) (p : String) : List String :=
  if isAbsPath p then pathSegs p else vault ++ pathSegs p

/-- `full_path.is_relative_to(self.vault_path)` on two resolved absolute
paths: the vault segments are a prefix of the full path's segments. -/
def isUnder (vault full : List String) : Bool :=
  vault.isPrefixOf full

/-- `VaultManager.validate_path` (manager.py 137-156): empty input returns the
vault root; otherwise the input is joined onto the root, resolved, and must
stay at or below the root. -/
def validatePath (vault : List String) (p : String) : Except VaultErr (List String) :=
  if p = "" then .ok vault
  else
    let full := resolveSegs (pyJoin vault p)
    if isUnder vault full then .ok full else .error .pathTraversal

/-! ## Task engine (`VaultManager.complete_task`, manager.py lines 500-592)

`TASK_PATTERN = re.compile(r"^(\s*)-\s*\[([ xX])\]\s*(.+)$", re.MULTILINE)` is
embedded as a deterministic matcher over `List Char`.  Python's backtracking
is resolved by hand: `\s*` before a literal never backtracks (whitespace is
disjoint from `-` and `[`), and the final `\s*(.+)$` backtracks to the
largest whitespace prefix whose following character exists and is not a
newline.  `^` matches at offset 0 or after a newline; `$` is realised by
`(.+)` greedily taking the rest of the physical line.  Whitespace, `lower()`
and `int()` are modelled for ASCII text. -/

/-- Python `\s` on ASCII characters. -/
def pyWS (c : Char) : Bool :=
  c == ' ' || c == '\t' || c == '\n' || c == '\r' || c == '\x0b' || c == '\x0c'

/-- Python `str.strip()` (ASCII whitespace). -/
def pyStripL (l : List Char) : List Char :=
  ((l.dropWhile pyWS).reverse.dropWhile pyWS).reverse

/-- Python `str.lower()`, restricted to ASCII letters. -/
def asciiLowerL (l : List Char) : List Char :=
  l.map Char.toLower

/-- `pre` is a prefix of `l` (character-wise). -/
def listStarts (pre l : List Char) : Bool :=
  match pre, l with
  | [], _ => true
  | _ :: _, [] => false
  | a :: xs, b :: ys => a == b && listStarts xs ys

/-- Python `needle in hay` for strings: contiguous substring test. -/
def listContains (needle hay : List Char) : Bool :=
  match hay with
  | [] => listStarts needle []
  | c :: t => listStarts needle (c :: t) || listContains needle t

/-- Digit-run part of Python `int()`: digits with single underscores allowed
between digits. `acc` is the value read so far. -/
def pyDigitsGo (acc : Nat) : List Char → Option Nat
  | [] => some acc
  | c :: rest =>
    if c.isDigit then pyDigitsGo (acc * 10 + (c.toNat - 48)) rest
    else if c == '_' then
      match rest with
      | d :: rest2 =>
        if d.isDigit then pyDigitsGo (acc * 10 + (d.toNat - 48)) rest2 else none
      | [] => none
    else none

/-- Leading digit required, then `pyDigitsGo`. -/
def pyDigitsStart (l : List Char) : Option Nat :=
  match l with
  | c :: rest => if c.isDigit then pyDigitsGo (c.toNat - 48) rest else none
  | [] => none

/-- Python `int(s)` for ASCII decimal strings: surrounding whitespace is
stripped, an optional sign is allowed, then underscore-grouped digits.
Returns `none` where CPython raises `ValueError`. -/
def pyParseInt (s : List Char) : Option Int :=
  match pyStripL s with
  | '+' :: rest => (pyDigitsStart rest).map (fun n => (n : Int))
  | '-' :: rest => (pyDigitsStart rest).map (fun n => -(n : Int))
  | rest => (pyDigitsStart rest).map (fun n => (n : Int))

/-- One match of `TASK_PATTERN`: the three capture groups plus the span. -/
structure TaskMatch where
  g1 : List Char
  g2 : Char
  g3 : List Char
  start : Nat
  stop : Nat
  deriving Repr, DecidableEq

/-- Backtracking of the final `\s*` of `TASK_PATTERN`: the largest `j` not
exceeding the greedy whitespace run such that a `(.+)`-match can start at
offset `j` of `r` (a character exists there and is not a newline). -/
def btrack (r : List Char) : Nat → Option Nat
  | 0 =>
    match r with
    | c :: _ => if c != '\n' then some 0 else none
    | [] => none
  | j + 1 =>
    match r.drop (j + 1) with
    | c :: _ => if c != '\n' then some (j + 1) else btrack r j
    | [] => btrack r j

/-- Attempt to match `TASK_PATTERN` at offset `p` of `s` (the `^` anchor is
checked by the caller). -/
def matchTaskAt (s : List Char) (p : Nat) : Option TaskMatch :=
  let rest := s.drop p
  let g1 := rest.takeWhile pyWS
  match rest.dropWhile pyWS with
  | '-' :: r2 =>
    let w2 := r2.takeWhile pyWS
    match r2.dropWhile pyWS with
    | '[' :: c :: ']' :: r6 =>
      if c == ' ' || c == 'x' || c == 'X' then
        match btrack r6 (r6.takeWhile pyWS).length with
        | some j =>
          let g3 := (r6.drop j).takeWhile (fun ch => ch != '\n')
          some ⟨g1, c, g3, p, p + g1.length + 1 + w2.length + 3 + j + g3.length⟩
        | none => none
      else none
    | _ => none
  | _ => none

/-- Whether `re.MULTILINE`'s `^` matches at offset `p`. -/
def lineStart (s : List Char) (p : Nat) : Bool :=
  match p with
  | 0 => true
  | q + 1 =>
    match s.drop q with
    | c :: _ => c == '\n'
    | [] => false

/-- `finditer` scan: try every `^` position left to right, resuming after the
end of each (non-empty) match.  Fuel is an upper bound on the number of scan
steps; every step advances the offset by at least one. -/
def scanTasksAux (s : List Char) : Nat → Nat → List TaskMatch
  | 0, _ => []
  | fuel + 1, p =>
    if p > s.length then []
    else if lineStart s p then
      match matchTaskAt s p with
      | some m => m :: scanTasksAux s fuel m.stop
      | none => scanTasksAux s fuel (p + 1)
    else scanTasksAux s fuel (p + 1)

/-- All matches of `TASK_PATTERN.finditer(content)` in order. -/
def findTaskMatches (s : List Char) : List TaskMatch :=
  scanTasksAux s (s.length + 2) 0

/-- One scanned task: match, 1-based line number (newlines before the match
start, plus one), stripped text, and completion flag — manager.py 515-521. -/
structure TaskEntry where
  m : TaskMatch
  line : Nat
  text : List Char
  completed : Bool
  deriving Repr, DecidableEq

/-- The task list `complete_task` builds from the file content. -/
def pyTasks (s : List Char) : List TaskEntry :=
  (findTaskMatches s).map fun m =>
    ⟨m, (s.take m.start).count '\n' + 1, pyStripL m.g3, m.g2 == 'x' || m.g2 == 'X'⟩

/-- Reasons `complete_task` raises `TaskNotFoundError` (manager.py 523-578);
each constructor carries the data its message enumerates. -/
inductive TaskErr where
  | noTasks
  | alreadyCompleted (line : Nat) (text : List Char)
  | lineMiss (n : Int) (available : List Nat)
  | ambiguous (found : List (List Char × Nat))
  | notFound (available : List (List Char))
  deriving Repr, DecidableEq

/-- Step 2 of the cascade: case-insensitive exact text match among incomplete
tasks (manager.py 554). -/
def exactMatches (tasks : List TaskEntry) (idl : List Char) : List TaskEntry :=
  tasks.filter (fun t => asciiLowerL t.text == idl && !t.completed)

/-- Step 3 of the cascade: case-insensitive substring match among incomplete
tasks (manager.py 560). -/
def substrMatches (tasks : List TaskEntry) (idl : List Char) : List TaskEntry :=
  tasks.filter (fun t => listContains idl (asciiLowerL t.text) && !t.completed)

/-- The cascading identifier resolution of `complete_task` (manager.py
529-578): line number, then exact text, then substring. -/
def resolveTaskTarget (tasks : List TaskEntry) (ident : List Char) :
    Except TaskErr TaskEntry :=
  match pyParseInt ident with
  | some n =>
    match tasks.find? (fun t => (t.line : Int) == n) with
    | some t => if t.completed then .error (.alreadyCompleted t.line t.text) else .ok t
    | none => .error (.lineMiss n (tasks.map TaskEntry.line))
  | none =>
    let idl := asciiLowerL ident
    match exactMatches tasks idl with
    | [t] => .ok t
    | [] =>
      match substrMatches tasks idl with
      | [t2] => .ok t2
      | [] => .error (.notFound ((tasks.filter (fun t => !t.completed)).map TaskEntry.text))
      | more => .error (.ambiguous (more.map (fun t => (t.text, t.line))))
    | more => .error (.ambiguous (more.map (fun t => (t.text, t.line))))

/-- The replacement text `f"{g1}- [x] {g3}"` inserts this canonical marker
between the captured groups. -/
def checkboxDone : List Char :=
  ['-', ' ', '[', 'x', ']', ' ']

/-- `complete_task` after the file has been read: find all tasks, resolve the
identifier, and splice the rewritten region into the content (manager.py
514-592, without the filesystem). -/
def completeTaskCore (s ident : List Char) : Except TaskErr (TaskEntry × List Char) :=
  let tasks := pyTasks s
  if tasks.isEmpty then .error .noTasks
  else
    match resolveTaskTarget tasks ident with
    | .error e => .error e
    | .ok t => .ok (t, s.take t.m.start ++ t.m.g1 ++ checkboxDone ++ t.m.g3 ++ s.drop t.m.stop)

/-- Projection used to state facts about the rewritten content. -/
def newContentOf (r : Except TaskErr (TaskEntry × List Char)) : Option (List Char) :=
  match r with
  | .ok (_, c) => some c
  | .error _ => none

deriving instance DecidableEq for Except

/-! ## Frontmatter (structured header block)

Modelled from the spec: the repository delegates header parsing and
serialisation to the third-party `python-frontmatter`/YAML pair, which is not
part of the source tree.  Per the spec (§6), a note may begin with a
file-leading delimited region (`---` boundary lines) of key-value pairs;
`title` and `tags` are interpreted, everything else is opaque and preserved
verbatim on update.  The model restricts header values to the scalar
`key: value` subset: a header line without a colon is the modelled "invalid
structured-block syntax"; a file whose first line is not a boundary, or with
no closing boundary, has no header and passes through verbatim. -/

/-- A boundary line of the delimited header region: three or more dashes
followed by nothing but whitespace. -/
def isBoundaryLine (l : List Char) : Bool :=
  decide ((l.takeWhile (fun c => c == '-')).length ≥ 3)
    && (l.dropWhile (fun c => c == '-')).all pyWS

/-- Modelled from the spec: one `key: value` header line — key before the
first colon, value after it (leading blanks dropped).  `none` signals invalid
structured-block syntax. -/
def parseHeaderLine (l : List Char) : Option (String × String) :=
  if l.any (fun c => c == ':') then
    some ((l.takeWhile (fun c => c != ':')).asString,
      (((l.dropWhile (fun c => c != ':')).tail).dropWhile (fun c => c == ' ')).asString)
  else none

/-- Parse all header lines, failing if any line is malformed. -/
def parseHeaderLines : List (List Char) → Option (List (String × String))
  | [] => some []
  | l :: rest =>
    match parseHeaderLine l, parseHeaderLines rest with
    | some kv, some md => some (kv :: md)
    | _, _ => none

/-- The single error kind of the modelled header parser (invalid syntax). -/
inductive YamlErr where
  | syntaxErr
  deriving Repr, DecidableEq

/-- Modelled from the spec: `frontmatter.loads` — split the content into a
leading delimited key-value region and the body; contents without a leading
boundary line, or without a closing one, have an empty header and an
unchanged body; a malformed header line is a syntax error. -/
def fmLoads (content : String) : Except YamlErr (List (String × String) × String) :=
  match content.data.splitOn '\n' with
  | [] => .ok ([], content)
  | l0 :: rest =>
    if isBoundaryLine l0 then
      match rest.dropWhile (fun l => !isBoundaryLine l) with
      | [] => .ok ([], content)
      | _ :: body =>
        match parseHeaderLines (rest.takeWhile (fun l => !isBoundaryLine l)) with
        | some md => .ok (md, (List.intercalate ['\n'] body).asString)
        | none => .error .syntaxErr
    else .ok ([], content)

/-- Serialised form of one header pair. -/
def fmLine (kv : String × String) : List Char :=
  kv.1.data ++ ':' :: ' ' :: kv.2.data

/-- Modelled from the spec: `frontmatter.dumps` — re-serialise the header
key-value pairs between `---` boundary lines, followed by the body. -/
def fmDumps (md : List (String × String)) (body : String) : String :=
  (List.intercalate ['\n']
    ([['-', '-', '-']] ++ md.map fmLine ++ [['-', '-', '-']]
      ++ body.data.splitOn '\n')).asString

/-- The body part of a parsed note: on a header parse failure `read_note`
falls back to the raw content (manager.py 387-393). -/
def fmBody (c : String) : String :=
  match fmLoads c with
  | .ok pr => pr.2
  | .error _ => c

/-- The metadata part of a parsed note: empty on a header parse failure. -/
def fmMeta (c : String) : List (String × String) :=
  match fmLoads c with
  | .ok pr => pr.1
  | .error _ => []

/-- Whether the content's first line is a header boundary (i.e. whether the
modelled `frontmatter.loads` sees a leading delimited block at all). -/
def hasHeaderStart (s : String) : Bool :=
  match s.data.splitOn '\n' with
  | l0 :: _ => isBoundaryLine l0
  | [] => false

/-- Key-value pairs as the modelled parser produces them: no colon or newline
in the key, no newline or leading blank in the value.  Re-serialising such a
pair and re-parsing it is the identity. -/
def WfPair (kv : String × String) : Prop :=
  kv.1.data.all (fun c => c != ':') = true
  ∧ kv.1.data.all (fun c => c != '\n') = true
  ∧ kv.2.data.all (fun c => c != '\n') = true
  ∧ kv.2.data.dropWhile (fun c => c == ' ') = kv.2.data

/-! ## Note metadata extraction (manager.py lines 158-220) -/

/-- First character class of `TAG_PATTERN`: an ASCII letter. -/
def isTagLetter (c : Char) : Bool :=
  ('a' ≤ c && c ≤ 'z') || ('A' ≤ c && c ≤ 'Z')

/-- Continuation class of `TAG_PATTERN`: letters, digits, `_`, `/`, `-`. -/
def isTagChar (c : Char) : Bool :=
  isTagLetter c || ('0' ≤ c && c ≤ '9') || c == '_' || c == '/' || c == '-'

/-- `TAG_PATTERN.findall`: every `#letter(tagchar)*` occurrence, scanning
left to right and resuming after each match.  Every step advances the scan
position, so fuel one beyond the length never runs out. -/
def findTagsGo : Nat → List Char → List (List Char)
  | 0, _ => []
  | _ + 1, [] => []
  | fuel + 1, c0 :: rest =>
    if c0 = '#' then
      match rest with
      | [] => []
      | c1 :: rest2 =>
        if isTagLetter c1 then
          (c1 :: rest2.takeWhile isTagChar) :: findTagsGo fuel (rest2.dropWhile isTagChar)
        else findTagsGo fuel (c1 :: rest2)
    else findTagsGo fuel rest

def findTags (s : List Char) : List (List Char) :=
  findTagsGo (s.length + 1) s

/-- Python `Path.stem`: the final component's name without its suffix; a name
whose only dot is leading or trailing keeps the dot (CPython's
`0 < i < len(name) - 1` guard on `rfind('.')`). -/
def pyStem (name : List Char) : List Char :=
  let afterRev := name.reverse.takeWhile (fun c => c != '.')
  match name.reverse.dropWhile (fun c => c != '.') with
  | [] => name
  | _ :: preRev =>
    if preRev = [] then name
    else if afterRev = [] then name
    else preRev.reverse

/-- `VaultManager._get_note_title` (manager.py 166-190): the header `title`
field if the header parses and has one, else the filename stem. -/
def noteTitle (fileName : String) (content : String) : String :=
  match fmLoads content with
  | .ok (md, _) =>
    match md.lookup "title" with
    | some v => v
    | none => (pyStem fileName.data).asString
  | .error _ => (pyStem fileName.data).asString

/-- `VaultManager._get_note_tags` (manager.py 192-220): header `tags` (in the
modelled scalar subset, a single string) united with inline `#tag` matches,
deduplicated and sorted. -/
def noteTags (content : String) : List String :=
  let fmTags : List String :=
    match fmLoads content with
    | .ok (md, _) =>
      match md.lookup "tags" with
      | some v => [v]
      | none => []
    | .error _ => []
  let inline := (findTags content.data).map List.asString
  ((fmTags ++ inline).dedup).mergeSort (fun a b => a ≤ b)

/-! ## Filesystem model and note CRUD (manager.py lines 360-498, 1330-1408)

The vault subtree is a flat map from vault-relative segment lists to file
contents (`none` = exists but unreadable/undecodable), plus a set of existing
directories.  The vault root itself always exists. -/

structure VaultFS where
  files : List (List String × Option String)
  dirs : List (List String)
  deriving Repr, DecidableEq

/-- Replace-or-append write of a readable file (the atomic write's effect). -/
def writeAssoc : List (List String × Option String) → List String → String →
    List (List String × Option String)
  | [], key, c => [(key, some c)]
  | (k, v) :: rest, key, c =>
    if k == key then (k, some c) :: rest else (k, v) :: writeAssoc rest key c

/-- `os.path.exists` on a vault-relative key. -/
def fsExists (fs : VaultFS) (key : List String) : Bool :=
  key == [] || (fs.files.lookup key).isSome || fs.dirs.contains key

/-- Effect of `_atomic_write` on the store. -/
def fsWriteFile (fs : VaultFS) (key : List String) (content : String) : VaultFS :=
  { fs with files := writeAssoc fs.files key content }

/-- `os.makedirs(dir, exist_ok=True)`: `dir` and all its ancestors exist
afterwards. -/
def fsMakeDirs (fs : VaultFS) (dir : List String) : VaultFS :=
  { fs with dirs := fs.dirs ++ dir.inits.filter (fun d => d != ([] : List String)) }

/-- Full note content as `read_note` returns it. -/
structure NoteContent where
  path : String
  title : String
  content : String
  tags : List String
  metadata : List (String × String)
  deriving Repr, DecidableEq

/-- The last segment of an absolute path (used for `full_path.stem`). -/
def lastSeg (segs : List String) : String :=
  (segs.getLast?).getD ""

/-- `VaultManager.read_note` (manager.py 360-395): validate, check existence,
read, then split the header off the body (malformed header: empty metadata,
body is the raw content). -/
def readNote (vault : List String) (fs : VaultFS) (path : String) :
    Except VaultErr NoteContent :=
  match validatePath vault path with
  | .error _ => .error .pathTraversal
  | .ok full =>
    let rel := full.drop vault.length
    if !fsExists fs rel then .error .noteNotFound
    else
      match fs.files.lookup rel with
      | none => .error .noteNotFound
      | some none => .error .noteNotFound
      | some (some content) =>
        let parsed :=
          match fmLoads content with
          | .ok (md, body) => (md, body)
          | .error _ => ([], content)
        .ok { path := path, title := noteTitle (lastSeg full) content,
              content := parsed.2, tags := noteTags content, metadata := parsed.1 }

/-- Python `str.rstrip("/")`. -/
def rstripSlash (s : String) : String :=
  ((s.data.reverse.dropWhile (fun c => c == '/')).reverse).asString

/-- Python `str.lstrip("/")`. -/
def lstripSlash (s : String) : String :=
  (s.data.dropWhile (fun c => c == '/')).asString

/-- The `.md` suffix appended by `create_note` when missing. -/
def withMdSuffix (s : String) : String :=
  if (".md").data.isSuffixOf s.data then s else s ++ ".md"

/-- `VaultManager.create_note` (manager.py 397-427): compose the relative
path from `folder` and `path`, append `.md` if missing, validate, fail if the
target exists, create missing parent directories, write atomically, and
return a fresh `read_note` of the target. -/
def createNote (vault : List String) (fs : VaultFS) (path content : String)
    (folder : Option String) : Except VaultErr (NoteContent × VaultFS) :=
  let rel0 :=
    match folder with
    | some f => rstripSlash f ++ "/" ++ lstripSlash path
    | none => path
  let fullRel := withMdSuffix rel0
  match validatePath vault fullRel with
  | .error _ => .error .pathTraversal
  | .ok full =>
    let rel := full.drop vault.length
    if fsExists fs rel then .error .noteExists
    else
      let fs1 := if !fsExists fs rel.dropLast then fsMakeDirs fs rel.dropLast else fs
      let fs2 := fsWriteFile fs1 rel content
      (readNote vault fs2 fullRel).map (fun nc => (nc, fs2))

/-- `VaultManager.update_note` (manager.py 429-461): validate, require
existence, and when preserving re-parse the existing header and re-serialise
it around the new body — falling back to the new content verbatim when the
existing file is empty, unreadable, or unparseable — then write atomically
and return a fresh `read_note`. -/
def updateNote (vault : List String) (fs : VaultFS) (path content : String)
    (preserve : Bool) : Except VaultErr (NoteContent × VaultFS) :=
  match validatePath vault path with
  | .error _ => .error .pathTraversal
  | .ok full =>
    let rel := full.drop vault.length
    if !fsExists fs rel then .error .noteNotFound
    else
      let finalContent :=
        if preserve then
          match fs.files.lookup rel with
          | some (some existing) =>
            if existing == "" then content
            else
              match fmLoads existing with
              | .ok (md, _) => fmDumps md content
              | .error _ => content
          | _ => content
        else content
      let fs2 := fsWriteFile fs rel finalContent
      (readNote vault fs2 path).map (fun nc => (nc, fs2))

/-! ## Preferences loader (manager.py lines 1330-1408) -/

/-- The fixed template written on auto-creation
(`PREFERENCES_TEMPLATE`, app/features/chat/preferences.py). -/
def prefsTemplate : String :=
  "---\n# Jasque User Preferences\n# Edit this file to customize how Jasque behaves\n\n# Date/time formatting preferences\ndate_format: \"YYYY-MM-DD\"\ntime_format: \"HH:mm\"\n\n# Default locations for different note types\ndefault_folders:\n  meeting_notes: \"Meetings/\"\n  daily_notes: \"Daily/\"\n  projects: \"Projects/\"\n\n# Response style preferences\nresponse_style:\n  verbosity: \"concise\"  # concise | detailed\n  use_bullet_points: true\n  include_timestamps: false\n\n# Folders to exclude from search results (default: [\"copilot\"])\n# The _jasque folder is always excluded automatically\nsearch_exclude_folders:\n  - copilot\n  # - templates  # Uncomment to also exclude templates folder\n---\n\n## Additional Context\n\nAny free-form notes you want Jasque to know about. For example:\n\n- I use the PARA method for organizing my vault\n- Meeting notes should always include attendees and action items\n- I prefer tasks formatted as `- [ ] task @due(date)`\n"

/-- Parsed preferences: the raw header key-value pairs and the free-form body
(the pydantic schema projection, which degrades invalid fields to defaults
without failing, is outside this claim's scope and not modelled). -/
structure PrefsResult where
  metadata : List (String × String)
  additionalContext : String
  deriving Repr, DecidableEq

/-- `VaultManager.load_preferences` (manager.py 1330-1408): file absent with
folder present writes the template and signals absence; folder absent signals
absence untouched; unreadable file signals absence; malformed header raises
`PreferencesParseError`; otherwise the parsed header and body are returned. -/
def loadPreferences (fs : VaultFS) : Except VaultErr (Option PrefsResult) × VaultFS :=
  let prefsKey := ["_jasque", "preferences.md"]
  let folderKey := ["_jasque"]
  if !fsExists fs prefsKey then
    if fsExists fs folderKey then (.ok none, fsWriteFile fs prefsKey prefsTemplate)
    else (.ok none, fs)
  else
    match fs.files.lookup prefsKey with
    | none => (.ok none, fs)
    | some none => (.ok none, fs)
    | some (some content) =>
      match fmLoads content with
      | .error _ => (.error .prefsParse, fs)
      | .ok (md, body) => (.ok (some ⟨md, body⟩), fs)

/-- Errors `complete_task` can raise at the filesystem level. -/
inductive CTErr where
  | path
  | noteNotFound
  | task (e : TaskErr)
  deriving Repr, DecidableEq

/-- `VaultManager.complete_task` (manager.py 500-592) including its
filesystem effects: every failing branch returns the store unchanged; only a
successful resolution performs the atomic write. -/
def completeTaskFS (vault : List String) (fs : VaultFS) (path ident : String) :
    Except CTErr TaskEntry × VaultFS :=
  match validatePath vault path with
  | .error _ => (.error .path, fs)
  | .ok full =>
    let rel := full.drop vault.length
    if !fsExists fs rel then (.error .noteNotFound, fs)
    else
      match fs.files.lookup rel with
      | none => (.error .noteNotFound, fs)
      | some none => (.error .noteNotFound, fs)
      | some (some content) =>
        match completeTaskCore content.data ident.data with
        | .error e => (.error (.task e), fs)
        | .ok (t, newC) => (.ok t, fsWriteFile fs rel newC.asString)

/-! ## Query engine (manager.py lines 594-1131)

Directory trees are modelled as nested entries; a file's `none` content is an
unreadable/undecodable file (read attempted, then skipped).  Each traversal
returns its results together with the number of file reads it performed, so
that "no further I/O beyond the limit" is statable. -/

inductive Entry where
  | file (name : String) (content : Option String)
  | dir (name : String) (entries : List Entry)
  deriving Repr

/-- `_is_hidden`: name begins with a dot. -/
def isHiddenName (s : String) : Bool :=
  match s.data with
  | c :: _ => c = '.'
  | [] => false

/-- `str(full_path.relative_to(self.vault_path))` for a child of `pfx`. -/
def relJoin (pfx name : String) : String :=
  if pfx = "" then name else pfx ++ "/" ++ name

/-- `_normalize_name`: casefold with `-`/`_`/space equivalent (ASCII). -/
def normalizeName (l : List Char) : List Char :=
  l.map (fun c => if c = '-' ∨ c = '_' then ' ' else Char.toLower c)

structure SearchRes where
  path : String
  title : String
  snippet : String
  line : Nat
  deriving Repr, DecidableEq

structure NoteHit where
  path : String
  title : String
  tags : List String
  deriving Repr, DecidableEq

structure BacklinkRes where
  path : String
  title : String
  context : String
  deriving Repr, DecidableEq

structure TaskHit where
  path : String
  text : String
  completed : Bool
  line : Nat
  deriving Repr, DecidableEq

/-- First 1-based line whose lowercase form contains the query. -/
def findLine (q : List Char) : Nat → List (List Char) → Option (Nat × List Char)
  | _, [] => none
  | i, l :: rest =>
    if listContains q (asciiLowerL l) then some (i, l) else findLine q (i + 1) rest

mutual

/-- Structural size of an entry (recursion fuel for the walks). -/
def entrySize : Entry → Nat
  | .file _ _ => 1
  | .dir _ entries => 1 + entriesSize entries

/-- Total size of a list of entries. -/
def entriesSize : List Entry → Nat
  | [] => 0
  | e :: es => entrySize e + entriesSize es

end

/-- The directory-walk skeleton shared verbatim by `_search_directory`,
`_find_by_tag_directory`, `_find_tasks` and `_find_backlinks` (manager.py
624-685, 717-770, 1062-1131, 928-988): stop at the limit before any further
processing, skip hidden entries, recurse into directories, and hand each
`.md` file to the operation's per-file body, which returns the updated
results and the number of file reads it performed. -/
def walkGo {R : Type} (perFile : String → String → Option String → List R → (List R × Nat))
    (limit : Nat) : Nat → List Entry → String → List R → (List R × Nat)
  | 0, _, _, res => (res, 0)
  | _ + 1, [], _, res => (res, 0)
  | fuel + 1, e :: rest, pfx, res =>
    if res.length ≥ limit then (res, 0)
    else
      match e with
      | .dir name entries =>
        if isHiddenName name then walkGo perFile limit fuel rest pfx res
        else
          let inner := walkGo perFile limit fuel entries (relJoin pfx name) res
          let outer := walkGo perFile limit fuel rest pfx inner.1
          (outer.1, inner.2 + outer.2)
      | .file name content =>
        if isHiddenName name then walkGo perFile limit fuel rest pfx res
        else if !(".md").data.isSuffixOf name.data then walkGo perFile limit fuel rest pfx res
        else
          let pr := perFile pfx name content res
          let outer := walkGo perFile limit fuel rest pfx pr.1
          (outer.1, pr.2 + outer.2)

/-- Per-file body of `_search_directory` (manager.py 663-685): read (one
read even when undecodable), and append one result for the first matching
line, if any. -/
def searchFile (q : List Char) (pfx name : String) (content : Option String)
    (res : List SearchRes) : List SearchRes × Nat :=
  match content with
  | none => (res, 1)
  | some c =>
    match findLine q 1 (c.data.splitOn '\n') with
    | some il =>
      (res ++ [⟨relJoin pfx name, noteTitle name c,
        ((pyStripL il.2).take 200).asString, il.1⟩], 1)
    | none => (res, 1)

def searchGo (q : List Char) (limit : Nat) (entries : List Entry) (pfx : String)
    (res : List SearchRes) : List SearchRes × Nat :=
  walkGo (searchFile q) limit (entriesSize entries + 1) entries pfx res

/-- Per-file body of `_find_by_tag_directory` (manager.py 756-770): append
the note when any of its lowercased tags is in the query set. -/
def tagsFile (tset : List String) (pfx name : String) (content : Option String)
    (res : List NoteHit) : List NoteHit × Nat :=
  match content with
  | none => (res, 1)
  | some c =>
    let noteTagList := noteTags c
    if tset.any (fun t =>
        (noteTagList.map (fun s => (asciiLowerL s.data).asString)).contains t) then
      (res ++ [⟨relJoin pfx name, noteTitle name c, noteTagList⟩], 1)
    else (res, 1)

def tagsGo (tset : List String) (limit : Nat) (entries : List Entry) (pfx : String)
    (res : List NoteHit) : List NoteHit × Nat :=
  walkGo (tagsFile tset) limit (entriesSize entries + 1) entries pfx res

/-- Inner loop of `_find_tasks` (manager.py 1109-1130): fold the scanned
tasks with a limit check before each, skipping completed ones unless
included. -/
def taskFold (rel : String) (includeCompleted : Bool) (limit : Nat) :
    List TaskEntry → List TaskHit → List TaskHit
  | [], res => res
  | t :: ts, res =>
    if res.length ≥ limit then res
    else if !includeCompleted && t.completed then taskFold rel includeCompleted limit ts res
    else taskFold rel includeCompleted limit ts
      (res ++ [⟨rel, t.text.asString, t.completed, t.line⟩])

/-- Per-file body of `_find_tasks` (manager.py 1101-1130). -/
def taskFile (includeCompleted : Bool) (limit : Nat) (pfx name : String)
    (content : Option String) (res : List TaskHit) : List TaskHit × Nat :=
  match content with
  | none => (res, 1)
  | some c => (taskFold (relJoin pfx name) includeCompleted limit (pyTasks c.data) res, 1)

def tasksGo (includeCompleted : Bool) (limit : Nat) (entries : List Entry) (pfx : String)
    (res : List TaskHit) : List TaskHit × Nat :=
  walkGo (taskFile includeCompleted limit) limit (entriesSize entries + 1) entries pfx res

/-- `WIKILINK_PATTERN.findall`: scan for `[[name]]` / `[[name|alias]]`,
where `name` is a non-empty run without `]` or `|` and the alias a non-empty
run without `]`; a failed attempt resumes one character later, a successful
one after the match.  Fuel bounds the scan steps. -/
def wikiGo : Nat → List Char → List (List Char)
  | 0, _ => []
  | fuel + 1, s =>
    match s with
    | '[' :: '[' :: rest =>
      let g1 := rest.takeWhile (fun c => c != ']' && c != '|')
      if g1 = [] then wikiGo fuel ('[' :: rest)
      else
        match rest.dropWhile (fun c => c != ']' && c != '|') with
        | ']' :: ']' :: rest2 => g1 :: wikiGo fuel rest2
        | '|' :: restA =>
          let ga := restA.takeWhile (fun c => c != ']')
          if ga = [] then wikiGo fuel ('[' :: rest)
          else
            match restA.dropWhile (fun c => c != ']') with
            | ']' :: ']' :: rest2 => g1 :: wikiGo fuel rest2
            | _ => wikiGo fuel ('[' :: rest)
        | _ => wikiGo fuel ('[' :: rest)
    | _ :: rest => wikiGo fuel rest
    | [] => []

def wikiScan (s : List Char) : List (List Char) :=
  wikiGo (s.length + 1) s

/-- The first line containing `[[name]]` or `[[name|` (manager.py 983-987). -/
def contextLine (noteName : String) (c : String) : String :=
  match (c.data.splitOn '\n').find? (fun l =>
      listContains ('[' :: '[' :: (noteName.data ++ [']', ']'])) l
        || listContains ('[' :: '[' :: (noteName.data ++ ['|'])) l) with
  | some l => ((pyStripL l).take 200).asString
  | none => ""

/-- Per-file body of `_find_backlinks` (manager.py 969-988): the entry whose
relative path equals the original `note_path` string is skipped before the
file is read; otherwise the file is read and appended when its wikilinks
contain the target stem. -/
def backFile (noteName orig : String) (pfx name : String) (content : Option String)
    (res : List BacklinkRes) : List BacklinkRes × Nat :=
  if relJoin pfx name == orig then (res, 0)
  else
    match content with
    | none => (res, 1)
    | some c =>
      if (wikiScan c.data).contains noteName.data then
        (res ++ [⟨relJoin pfx name, noteTitle name c, contextLine noteName c⟩], 1)
      else (res, 1)

def backGo (noteName orig : String) (limit : Nat) (entries : List Entry) (pfx : String)
    (res : List BacklinkRes) : List BacklinkRes × Nat :=
  walkGo (backFile noteName orig) limit (entriesSize entries + 1) entries pfx res

/-- `_find_by_name_directory` (manager.py 828-895): collects exact, contains
and title matches into three lists with NO limit checks — every readable
`.md` file in the subtree is read. -/
def nameGo (qn : List Char) :
    Nat → List Entry → String → (List NoteHit × List NoteHit × List NoteHit) →
    ((List NoteHit × List NoteHit × List NoteHit) × Nat)
  | 0, _, _, acc => (acc, 0)
  | _ + 1, [], _, acc => (acc, 0)
  | fuel + 1, e :: rest, pfx, acc =>
    match e with
    | .dir name entries =>
      if isHiddenName name then nameGo qn fuel rest pfx acc
      else
        let inner := nameGo qn fuel entries (relJoin pfx name) acc
        let outer := nameGo qn fuel rest pfx inner.1
        (outer.1, inner.2 + outer.2)
    | .file name content =>
      if isHiddenName name then nameGo qn fuel rest pfx acc
      else if !(".md").data.isSuffixOf name.data then nameGo qn fuel rest pfx acc
      else
        match content with
        | none =>
          let outer := nameGo qn fuel rest pfx acc
          (outer.1, outer.2 + 1)
        | some c =>
          let fn := normalizeName (name.data.dropLast.dropLast.dropLast)
          let hit : NoteHit := ⟨relJoin pfx name, noteTitle name c, noteTags c⟩
          let acc2 :=
            if fn == qn then (acc.1 ++ [hit], acc.2.1, acc.2.2)
            else if listContains qn fn then (acc.1, acc.2.1 ++ [hit], acc.2.2)
            else
              let tn := normalizeName (noteTitle name c).data
              if tn == qn || listContains qn tn then (acc.1, acc.2.1, acc.2.2 ++ [hit])
              else acc
          let outer := nameGo qn fuel rest pfx acc2
          (outer.1, outer.2 + 1)

/-- Locate the subtree at a relative path (`listdir` of a missing or
non-directory base fails with `OSError`, which the walks treat as empty). -/
def subtreeAtGo : Nat → List Entry → List String → Option (List Entry)
  | 0, _, _ => none
  | _ + 1, entries, [] => some entries
  | _ + 1, [], _ :: _ => none
  | fuel + 1, .file _ _ :: es, seg :: rest => subtreeAtGo fuel es (seg :: rest)
  | fuel + 1, .dir name sub :: es, seg :: rest =>
    if name == seg then subtreeAtGo fuel sub rest else subtreeAtGo fuel es (seg :: rest)

def subtreeAt (entries : List Entry) (key : List String) : Option (List Entry) :=
  subtreeAtGo (entriesSize entries + key.length + 1) entries key

/-- `os.path.exists` against the tree. -/
def treeExistsGo : Nat → List Entry → List String → Bool
  | 0, _, _ => false
  | _ + 1, _, [] => true
  | _ + 1, [], _ :: _ => false
  | fuel + 1, .file name _ :: es, seg :: rest =>
    (name == seg && rest == ([] : List String)) || treeExistsGo fuel es (seg :: rest)
  | fuel + 1, .dir name sub :: es, seg :: rest =>
    (name == seg && treeExistsGo fuel sub rest) || treeExistsGo fuel es (seg :: rest)

def treeExists (entries : List Entry) (key : List String) : Bool :=
  treeExistsGo (entriesSize entries + key.length + 1) entries key

/-- The `"/"`-joined form of a relative segment list (what
`str(path.relative_to(vault))` yields for the scope prefix). -/
def relString (segs : List String) : String :=
  String.intercalate "/" segs

/-- `search_text` (manager.py 594-622): lowercase the query, validate the
scope, and walk. -/
def searchText (vault : List String) (tree : List Entry) (q : String)
    (path : Option String) (limit : Nat) : Except VaultErr (List SearchRes × Nat) :=
  match validatePath vault (path.getD "") with
  | .error _ => .error .pathTraversal
  | .ok full =>
    let rel := full.drop vault.length
    .ok (searchGo (asciiLowerL q.data) limit ((subtreeAt tree rel).getD []) (relString rel) [])

/-- `find_by_tag` (manager.py 687-715): normalise the tags (lowercase, strip
leading `#`) and walk. -/
def findByTag (vault : List String) (tree : List Entry) (tags : List String)
    (path : Option String) (limit : Nat) : Except VaultErr (List NoteHit × Nat) :=
  match validatePath vault (path.getD "") with
  | .error _ => .error .pathTraversal
  | .ok full =>
    let rel := full.drop vault.length
    let tset := tags.map (fun t => ((asciiLowerL t.data).dropWhile (fun c => c == '#')).asString)
    .ok (tagsGo tset limit ((subtreeAt tree rel).getD []) (relString rel) [])

/-- `list_tasks` (manager.py 1033-1060). -/
def listTasks (vault : List String) (tree : List Entry) (path : Option String)
    (includeCompleted : Bool) (limit : Nat) : Except VaultErr (List TaskHit × Nat) :=
  match validatePath vault (path.getD "") with
  | .error _ => .error .pathTraversal
  | .ok full =>
    let rel := full.drop vault.length
    .ok (tasksGo includeCompleted limit ((subtreeAt tree rel).getD []) (relString rel) [])

/-- Insert `x` after every element `y` with `le y x` (ties keep order). -/
def insertLe {α : Type} (le : α → α → Bool) (x : α) : List α → List α
  | [] => [x]
  | y :: ys => if le y x then y :: insertLe le x ys else x :: y :: ys

/-- Python's stable `list.sort` with a key: a stable ascending sort. -/
def pySort {α : Type} (le : α → α → Bool) (l : List α) : List α :=
  l.foldl (fun acc x => insertLe le x acc) []

/-- `find_by_name` (manager.py 772-826): strip a `.md` suffix off the query,
normalise it, collect the three match tiers over the whole subtree (no early
stop), sort each tier by path length, concatenate, and truncate to `limit`. -/
def findByName (vault : List String) (tree : List Entry) (q : String)
    (path : Option String) (limit : Nat) : Except VaultErr (List NoteHit × Nat) :=
  match validatePath vault (path.getD "") with
  | .error _ => .error .pathTraversal
  | .ok full =>
    let rel := full.drop vault.length
    let qc := if (".md").data.isSuffixOf q.data then q.data.dropLast.dropLast.dropLast else q.data
    let qn := normalizeName qc
    let base := (subtreeAt tree rel).getD []
    let walked := nameGo qn (entriesSize base + 1) base (relString rel) ([], [], [])
    let byLen := fun (a b : NoteHit) => decide (a.path.length ≤ b.path.length)
    .ok (((pySort byLen walked.1.1 ++ pySort byLen walked.1.2.1
      ++ pySort byLen walked.1.2.2).take limit), walked.2)

/-- `get_backlinks` (manager.py 897-926): validate and require the target to
exist, derive the stem from the *input string*, then walk the whole vault
excluding the entry whose relative path equals that input string. -/
def getBacklinks (vault : List String) (tree : List Entry) (notePath : String)
    (limit : Nat) : Except VaultErr (List BacklinkRes × Nat) :=
  match validatePath vault notePath with
  | .error _ => .error .pathTraversal
  | .ok full =>
    let rel := full.drop vault.length
    if !treeExists tree rel then .error .noteNotFound
    else
      let noteName := (pyStem (lastSeg (pathSegs notePath)).data).asString
      .ok (backGo noteName notePath limit tree "" [])

/-! ### Path guard lemmas and claim theorems -/

theorem resolveSegs_append (a b : List String) :
    resolveSegs (a ++ b) = b.foldl resolveStep (resolveSegs a) := by
  simp [resolveSegs, List.foldl_append]

theorem foldl_resolveStep_no_dotdot (b : List String) :
    ∀ acc : List String, (".." ∉ b) → b.foldl resolveStep acc = acc ++ b := by
  induction b with
  | nil => intro acc _; simp
  | cons x xs ih =>
    intro acc hx
    have hx1 : x ≠ ".." := fun h => hx (h ▸ List.mem_cons_self x xs)
    have hx2 : ".." ∉ xs := fun h => hx (List.mem_cons_of_mem x h)
    simp [List.foldl_cons, resolveStep, hx1, ih _ hx2]

/-- Resolving a `..`-free suffix appended to an already-resolved root keeps
the root intact and appends the suffix verbatim. -/
theorem resolveSegs_append_clean (vault segs : List String)
    (hwf : resolveSegs vault = vault) (hnd : ".." ∉ segs) :
    resolveSegs (vault ++ segs) = vault ++ segs := by
  rw [resolveSegs_append, hwf, foldl_resolveStep_no_dotdot segs vault hnd]

/-- C1: for a relative input string, `validate_path` returns the vault root on
empty input, raises `PathTraversalError` exactly when the `..`-normalised
(symlink-free) resolution of `VaultRoot / input` escapes the vault root, and
otherwise returns that resolved join — which, whenever the input contains no
`..` segment, is literally `VaultRoot` followed by the input's normalised
segments. -/
theorem validate_path_containment (vault : List String) (p : String)
    (hwf : resolveSegs vault = vault) (hrel : ¬ isAbsPath p = true) :
    validatePath vault "" = .ok vault
    ∧ (p ≠ "" → ¬ isUnder vault (resolveSegs (vault ++ pathSegs p)) = true →
        validatePath vault p = .error .pathTraversal)
    ∧ (p ≠ "" → isUnder vault (resolveSegs (vault ++ pathSegs p)) = true →
        validatePath vault p = .ok (resolveSegs (vault ++ pathSegs p)))
    ∧ (".." ∉ pathSegs p → resolveSegs (vault ++ pathSegs p) = vault ++ pathSegs p) := by
  have habs : isAbsPath p = false := by
    revert hrel; cases isAbsPath p <;> simp
  refine ⟨by simp [validatePath], ?_, ?_, fun hnd => resolveSegs_append_clean vault _ hwf hnd⟩
  · intro hne hout
    have hout2 : isUnder vault (resolveSegs (vault ++ pathSegs p)) = false := by
      revert hout; cases isUnder vault (resolveSegs (vault ++ pathSegs p)) <;> simp
    simp [validatePath, hne, pyJoin, habs, hout2]
  · intro hne hin
    simp [validatePath, hne, pyJoin, habs, hin]

theorem validate_path_containment_witness :
    validatePath ["home", "vault"] "" = .ok ["home", "vault"]
    ∧ ("notes/../../etc" ≠ "" →
        ¬ isUnder ["home", "vault"]
            (resolveSegs (["home", "vault"] ++ pathSegs "notes/../../etc")) = true →
        validatePath ["home", "vault"] "notes/../../etc" = .error .pathTraversal)
    ∧ ("notes/../../etc" ≠ "" →
        isUnder ["home", "vault"]
            (resolveSegs (["home", "vault"] ++ pathSegs "notes/../../etc")) = true →
        validatePath ["home", "vault"] "notes/../../etc"
          = .ok (resolveSegs (["home", "vault"] ++ pathSegs "notes/../../etc")))
    ∧ (".." ∉ pathSegs "notes/../../etc" →
        resolveSegs (["home", "vault"] ++ pathSegs "notes/../../etc")
          = ["home", "vault"] ++ pathSegs "notes/../../etc") :=
  validate_path_containment ["home", "vault"] "notes/../../etc" (by decide) (by decide)

/-- C10: for any nonempty input (relative or absolute), `validate_path` raises
`PathTraversalError` if and only if the resolved candidate `vault / input` is
neither the vault root nor a descendant of it; in particular an absolute input
that points inside the vault is accepted, because the `pathlib` join discards
the vault prefix when the right operand is absolute. -/
theorem validate_path_reject_iff (vault : List String) (p : String) (hne : p ≠ "") :
    (validatePath vault p = .error .pathTraversal
      ↔ ¬ isUnder vault (resolveSegs (pyJoin vault p)) = true)
    ∧ (isAbsPath p = true → isUnder vault (resolveSegs (pathSegs p)) = true →
        validatePath vault p = .ok (resolveSegs (pathSegs p))) := by
  constructor
  · constructor
    · intro h hin
      simp [validatePath, hne, hin] at h
    · intro hout
      have hout2 : isUnder vault (resolveSegs (pyJoin vault p)) = false := by
        revert hout; cases isUnder vault (resolveSegs (pyJoin vault p)) <;> simp
      simp [validatePath, hne, hout2]
  · intro habs hin
    have hj : pyJoin vault p = pathSegs p := by simp [pyJoin, habs]
    simp [validatePath, hne, hj, hin]

theorem validate_path_reject_iff_witness :
    ((validatePath ["home", "vault"] "/home/vault/notes/a.md" = .error .pathTraversal
      ↔ ¬ isUnder ["home", "vault"]
            (resolveSegs (pyJoin ["home", "vault"] "/home/vault/notes/a.md")) = true)
    ∧ (isAbsPath "/home/vault/notes/a.md" = true →
        isUnder ["home", "vault"] (resolveSegs (pathSegs "/home/vault/notes/a.md")) = true →
        validatePath ["home", "vault"] "/home/vault/notes/a.md"
          = .ok (resolveSegs (pathSegs "/home/vault/notes/a.md")))) :=
  validate_path_reject_iff ["home", "vault"] "/home/vault/notes/a.md" (by decide)

/-! ### Task engine claim theorems -/

/-- C2: on a file with at least one checkbox, `complete_task` resolves the
identifier in cascade order.  An identifier that parses as an integer must hit
an existing task's reported line number (first such task), failing with
`TaskNotFoundError` when that task is already complete or when no task has the
number; otherwise a unique case-insensitive exact text match among incomplete
tasks is taken; otherwise a unique case-insensitive substring match among
incomplete tasks is taken, and zero or several substring matches fail with
`TaskNotFoundError`. -/
theorem complete_task_cascade (s ident : List Char) (h : pyTasks s ≠ []) :
    (∀ n : Int, pyParseInt ident = some n →
      ((pyTasks s).find? (fun t => (t.line : Int) == n) = none →
        completeTaskCore s ident = .error (.lineMiss n ((pyTasks s).map TaskEntry.line)))
      ∧ (∀ t0 : TaskEntry, (pyTasks s).find? (fun t => (t.line : Int) == n) = some t0 →
          (t0.completed = true →
            completeTaskCore s ident = .error (.alreadyCompleted t0.line t0.text))
          ∧ (t0.completed = false →
            completeTaskCore s ident
              = .ok (t0, s.take t0.m.start ++ t0.m.g1 ++ checkboxDone
                  ++ t0.m.g3 ++ s.drop t0.m.stop))))
    ∧ (pyParseInt ident = none →
      (∀ t0, exactMatches (pyTasks s) (asciiLowerL ident) = [t0] →
        completeTaskCore s ident
          = .ok (t0, s.take t0.m.start ++ t0.m.g1 ++ checkboxDone
              ++ t0.m.g3 ++ s.drop t0.m.stop))
      ∧ (exactMatches (pyTasks s) (asciiLowerL ident) = [] →
        (∀ t0, substrMatches (pyTasks s) (asciiLowerL ident) = [t0] →
          completeTaskCore s ident
            = .ok (t0, s.take t0.m.start ++ t0.m.g1 ++ checkboxDone
                ++ t0.m.g3 ++ s.drop t0.m.stop))
        ∧ (substrMatches (pyTasks s) (asciiLowerL ident) = [] →
          completeTaskCore s ident
            = .error (.notFound
                (((pyTasks s).filter (fun t => !t.completed)).map TaskEntry.text)))
        ∧ (∀ t1 t2 rest, substrMatches (pyTasks s) (asciiLowerL ident) = t1 :: t2 :: rest →
          completeTaskCore s ident
            = .error (.ambiguous ((t1 :: t2 :: rest).map (fun t => (t.text, t.line))))))
      ∧ (∀ t1 t2 rest, exactMatches (pyTasks s) (asciiLowerL ident) = t1 :: t2 :: rest →
        completeTaskCore s ident
          = .error (.ambiguous ((t1 :: t2 :: rest).map (fun t => (t.text, t.line)))))) := by
  have hEmp : (pyTasks s).isEmpty = false := by
    cases hts : pyTasks s
    · exact absurd hts h
    · rfl
  refine ⟨fun n hn => ⟨fun hfind => ?_, fun t0 hfind => ⟨fun hc => ?_, fun hc => ?_⟩⟩,
    fun hn => ⟨fun t0 hex => ?_, fun hex => ⟨fun t0 hsub => ?_, fun hsub => ?_,
      fun t1 t2 rest hsub => ?_⟩, fun t1 t2 rest hex => ?_⟩⟩
  · simp [completeTaskCore, hEmp, resolveTaskTarget, hn, hfind]
  · simp [completeTaskCore, hEmp, resolveTaskTarget, hn, hfind, hc]
  · simp [completeTaskCore, hEmp, resolveTaskTarget, hn, hfind, hc]
  · simp [completeTaskCore, hEmp, resolveTaskTarget, hn, hex]
  · simp [completeTaskCore, hEmp, resolveTaskTarget, hn, hex, hsub]
  · simp [completeTaskCore, hEmp, resolveTaskTarget, hn, hex, hsub]
  · simp [completeTaskCore, hEmp, resolveTaskTarget, hn, hex, hsub]
  · simp [completeTaskCore, hEmp, resolveTaskTarget, hn, hex]

theorem complete_task_cascade_witness :
    pyTasks (("# T\n\n- [ ] Buy groceries\n- [ ] Call mom\n").toList) ≠ [] ∧
    ((∀ n : Int, pyParseInt (("groceries").toList) = some n →
      ((pyTasks (("# T\n\n- [ ] Buy groceries\n- [ ] Call mom\n").toList)).find?
          (fun t => (t.line : Int) == n) = none →
        completeTaskCore (("# T\n\n- [ ] Buy groceries\n- [ ] Call mom\n").toList)
            (("groceries").toList)
          = .error (.lineMiss n ((pyTasks
              (("# T\n\n- [ ] Buy groceries\n- [ ] Call mom\n").toList)).map TaskEntry.line)))
      ∧ (∀ t0 : TaskEntry, (pyTasks
            (("# T\n\n- [ ] Buy groceries\n- [ ] Call mom\n").toList)).find?
            (fun t => (t.line : Int) == n) = some t0 →
          (t0.completed = true →
            completeTaskCore (("# T\n\n- [ ] Buy groceries\n- [ ] Call mom\n").toList)
                (("groceries").toList)
              = .error (.alreadyCompleted t0.line t0.text))
          ∧ (t0.completed = false →
            completeTaskCore (("# T\n\n- [ ] Buy groceries\n- [ ] Call mom\n").toList)
                (("groceries").toList)
              = .ok (t0, (("# T\n\n- [ ] Buy groceries\n- [ ] Call mom\n").toList).take t0.m.start
                  ++ t0.m.g1 ++ checkboxDone ++ t0.m.g3
                  ++ (("# T\n\n- [ ] Buy groceries\n- [ ] Call mom\n").toList).drop t0.m.stop))))
    ∧ (pyParseInt (("groceries").toList) = none →
      (∀ t0, exactMatches (pyTasks (("# T\n\n- [ ] Buy groceries\n- [ ] Call mom\n").toList))
          (asciiLowerL (("groceries").toList)) = [t0] →
        completeTaskCore (("# T\n\n- [ ] Buy groceries\n- [ ] Call mom\n").toList)
            (("groceries").toList)
          = .ok (t0, (("# T\n\n- [ ] Buy groceries\n- [ ] Call mom\n").toList).take t0.m.start
              ++ t0.m.g1 ++ checkboxDone ++ t0.m.g3
              ++ (("# T\n\n- [ ] Buy groceries\n- [ ] Call mom\n").toList).drop t0.m.stop))
      ∧ (exactMatches (pyTasks (("# T\n\n- [ ] Buy groceries\n- [ ] Call mom\n").toList))
          (asciiLowerL (("groceries").toList)) = [] →
        (∀ t0, substrMatches (pyTasks (("# T\n\n- [ ] Buy groceries\n- [ ] Call mom\n").toList))
            (asciiLowerL (("groceries").toList)) = [t0] →
          completeTaskCore (("# T\n\n- [ ] Buy groceries\n- [ ] Call mom\n").toList)
              (("groceries").toList)
            = .ok (t0, (("# T\n\n- [ ] Buy groceries\n- [ ] Call mom\n").toList).take t0.m.start
                ++ t0.m.g1 ++ checkboxDone ++ t0.m.g3
                ++ (("# T\n\n- [ ] Buy groceries\n- [ ] Call mom\n").toList).drop t0.m.stop))
        ∧ (substrMatches (pyTasks (("# T\n\n- [ ] Buy groceries\n- [ ] Call mom\n").toList))
            (asciiLowerL (("groceries").toList)) = [] →
          completeTaskCore (("# T\n\n- [ ] Buy groceries\n- [ ] Call mom\n").toList)
              (("groceries").toList)
            = .error (.notFound
                (((pyTasks (("# T\n\n- [ ] Buy groceries\n- [ ] Call mom\n").toList)).filter
                    (fun t => !t.completed)).map TaskEntry.text)))
        ∧ (∀ t1 t2 rest, substrMatches
            (pyTasks (("# T\n\n- [ ] Buy groceries\n- [ ] Call mom\n").toList))
            (asciiLowerL (("groceries").toList)) = t1 :: t2 :: rest →
          completeTaskCore (("# T\n\n- [ ] Buy groceries\n- [ ] Call mom\n").toList)
              (("groceries").toList)
            = .error (.ambiguous ((t1 :: t2 :: rest).map (fun t => (t.text, t.line))))))
      ∧ (∀ t1 t2 rest, exactMatches
          (pyTasks (("# T\n\n- [ ] Buy groceries\n- [ ] Call mom\n").toList))
          (asciiLowerL (("groceries").toList)) = t1 :: t2 :: rest →
        completeTaskCore (("# T\n\n- [ ] Buy groceries\n- [ ] Call mom\n").toList)
            (("groceries").toList)
          = .error (.ambiguous ((t1 :: t2 :: rest).map (fun t => (t.text, t.line))))))) :=
  ⟨by decide, complete_task_cascade (("# T\n\n- [ ] Buy groceries\n- [ ] Call mom\n").toList)
      (("groceries").toList) (by decide)⟩

theorem btrack_some (r : List Char) :
    ∀ j0 j, btrack r j0 = some j →
      j ≤ j0 ∧ ∃ ch rest2, r.drop j = ch :: rest2 ∧ (ch != '\n') = true := by
  intro j0
  induction j0 with
  | zero =>
    intro j hb
    unfold btrack at hb
    cases hr : r with
    | nil => rw [hr] at hb; exact absurd hb (by simp)
    | cons ch rest2 =>
      rw [hr] at hb
      by_cases hch : (ch != '\n') = true
      · simp [hch] at hb
        subst hb
        exact ⟨Nat.le_refl 0, ch, rest2, by simp, hch⟩
      · simp [hch] at hb
  | succ j0 ih =>
    intro j hb
    unfold btrack at hb
    cases hr : r.drop (j0 + 1) with
    | nil =>
      rw [hr] at hb
      have hres := ih j hb
      exact ⟨Nat.le_succ_of_le hres.1, hres.2⟩
    | cons ch rest2 =>
      rw [hr] at hb
      by_cases hch : (ch != '\n') = true
      · simp [hch] at hb
        subst hb
        exact ⟨Nat.le_refl _, ch, rest2, hr, hch⟩
      · simp [hch] at hb
        have hres := ih j hb
        exact ⟨Nat.le_succ_of_le hres.1, hres.2⟩

theorem all_take_of_le_takeWhile (p : Char → Bool) (l : List Char) :
    ∀ j, j ≤ (l.takeWhile p).length → (l.take j).all p = true := by
  induction l with
  | nil => intro j _; simp
  | cons a l ih =>
    intro j hj
    cases j with
    | zero => simp
    | succ j =>
      by_cases hpa : p a = true
      · have hj2 : j ≤ (l.takeWhile p).length := by
          simp [List.takeWhile_cons, hpa] at hj
          exact hj
        rw [List.take_succ_cons]
        simp only [List.all_cons, hpa, Bool.true_and]
        exact ih j hj2
      · simp [List.takeWhile_cons, hpa] at hj

/-- Every match reported by the scanner comes from `matchTaskAt`. -/
theorem mem_scanTasks (s : List Char) :
    ∀ fuel p m, m ∈ scanTasksAux s fuel p → ∃ q, matchTaskAt s q = some m := by
  intro fuel
  induction fuel with
  | zero => intro p m hm; exact absurd hm (by simp [scanTasksAux])
  | succ fuel ih =>
    intro p m hm
    unfold scanTasksAux at hm
    by_cases hp : p > s.length
    · simp [hp] at hm
    · simp only [hp, if_false] at hm
      by_cases hls : lineStart s p = true
      · simp only [hls, if_true] at hm
        cases hmt : matchTaskAt s p with
        | some m0 =>
          rw [hmt] at hm
          rcases List.mem_cons.mp hm with h1 | h2
          · exact ⟨p, h1 ▸ hmt⟩
          · exact ih _ m h2
        | none => rw [hmt] at hm; exact ih _ m hm
      · simp only [hls, if_false] at hm
        exact ih _ m hm

theorem takeWhile_all (p : Char → Bool) (l : List Char) : (l.takeWhile p).all p = true :=
  List.all_eq_true.mpr (fun _ ha => List.mem_takeWhile_imp ha)

/-- Structure of a successful `TASK_PATTERN` match: the matched region of the
original content decomposes into the leading-whitespace group, a dash,
whitespace, the bracketed checkbox character, whitespace, and the text group,
and the span arithmetic lines up with that decomposition. -/
theorem matchTaskAt_decomp (s : List Char) (p : Nat) (m : TaskMatch)
    (h : matchTaskAt s p = some m) :
    m.start = p
    ∧ (m.g2 = ' ' ∨ m.g2 = 'x' ∨ m.g2 = 'X')
    ∧ m.g1.all pyWS = true
    ∧ ∃ w2 wj,
        w2.all pyWS = true ∧ wj.all pyWS = true
        ∧ s.drop p = m.g1 ++ ['-'] ++ w2 ++ ['[', m.g2, ']'] ++ wj ++ m.g3 ++ s.drop m.stop
        ∧ m.stop = p + m.g1.length + 1 + w2.length + 3 + wj.length + m.g3.length := by
  simp only [matchTaskAt] at h
  split at h
  case _ r2 heq1 =>
    split at h
    case _ c r6 heq2 =>
      split at h
      case isTrue hcls =>
        split at h
        case _ j hbt =>
          injection h with h
          subst h
          obtain ⟨hle, ch, rest2, hdropj, hch⟩ := btrack_some r6 _ j hbt
          have hjlen : j ≤ r6.length :=
            Nat.le_trans hle ((List.takeWhile_sublist pyWS).length_le)
          have hcls2 : c = ' ' ∨ c = 'x' ∨ c = 'X' := by
            simpa [or_assoc] using hcls
          set A := (s.drop p).takeWhile pyWS with hA
          set B := r2.takeWhile pyWS with hB
          set C := (r6.drop j).takeWhile (fun ch => ch != '\n') with hC
          set D := (r6.drop j).dropWhile (fun ch => ch != '\n') with hD
          set W := r6.take j with hW
          have hwjlen : W.length = j := by
            rw [hW, List.length_take]; exact Nat.min_eq_left hjlen
          have e1 : s.drop p = A ++ ('-' :: r2) := by
            conv_lhs => rw [← List.takeWhile_append_dropWhile pyWS (s.drop p)]
            rw [heq1]
          have e2 : r2 = B ++ ('[' :: c :: ']' :: r6) := by
            conv_lhs => rw [← List.takeWhile_append_dropWhile pyWS r2]
            rw [heq2]
          have e3 : r6 = W ++ (C ++ D) := by
            conv_lhs => rw [← List.take_append_drop j r6]
            conv_lhs => rw [← List.takeWhile_append_dropWhile (fun ch => ch != '\n') (r6.drop j)]
          have hsdp : s.drop p = (A ++ ['-'] ++ B ++ ['[', c, ']'] ++ W ++ C) ++ D := by
            rw [e1, e2, e3]
            simp
          have hKlen : (A ++ ['-'] ++ B ++ ['[', c, ']'] ++ W ++ C).length
              = A.length + 1 + B.length + 3 + j + C.length := by
            simp [hwjlen]
            omega
          have htail : s.drop (p + A.length + 1 + B.length + 3 + j + C.length) = D := by
            have hE : p + A.length + 1 + B.length + 3 + j + C.length
                = p + (A ++ ['-'] ++ B ++ ['[', c, ']'] ++ W ++ C).length := by
              rw [hKlen]; omega
            rw [hE]
            have h1 : s.drop (p + (A ++ ['-'] ++ B ++ ['[', c, ']'] ++ W ++ C).length)
                = (s.drop p).drop (A ++ ['-'] ++ B ++ ['[', c, ']'] ++ W ++ C).length :=
              (List.drop_drop _ p s).symm
            rw [h1, hsdp, List.drop_left]
          refine ⟨rfl, hcls2, by rw [hA]; exact takeWhile_all pyWS _, B, W,
            by rw [hB]; exact takeWhile_all pyWS _,
            by rw [hW]; exact all_take_of_le_takeWhile pyWS r6 j hle, ?_, ?_⟩
          · rw [htail]
            simpa using hsdp
          · simp [hwjlen]
        case _ => exact absurd h (by simp)
      case isFalse => exact absurd h (by simp)
    all_goals exact absurd h (by simp)
  all_goals exact absurd h (by simp)

/-- A successfully resolved target is one of the scanned tasks and is not yet
completed (every selecting branch of the cascade filters completed tasks
out, and the line-number branch raises on a completed hit). -/
theorem resolveTaskTarget_ok (tasks : List TaskEntry) (ident : List Char) (t : TaskEntry)
    (h : resolveTaskTarget tasks ident = .ok t) : t ∈ tasks ∧ t.completed = false := by
  unfold resolveTaskTarget at h
  dsimp only at h
  split at h
  case _ n hn =>
    split at h
    case _ t0 hfind =>
      split at h
      case isTrue => exact absurd h (by simp)
      case isFalse hcomp =>
        injection h with h
        subst h
        exact ⟨List.mem_of_find?_eq_some hfind, by simpa using hcomp⟩
    case _ hfind => exact absurd h (by simp)
  case _ hn =>
    split at h
    case _ t0 hexact =>
      injection h with h
      subst h
      have hmemf : t0 ∈ exactMatches tasks (asciiLowerL ident) := by rw [hexact]; simp
      have hp := List.of_mem_filter hmemf
      simp at hp
      exact ⟨List.mem_of_mem_filter hmemf, hp.2⟩
    case _ hexact0 hexact =>
      split at h
      case _ t0 hsub =>
        injection h with h
        subst h
        have hmemf : t0 ∈ substrMatches tasks (asciiLowerL ident) := by rw [hsub]; simp
        have hp := List.of_mem_filter hmemf
        simp at hp
        exact ⟨List.mem_of_mem_filter hmemf, hp.2⟩
      case _ => exact absurd h (by simp)
      case _ => exact absurd h (by simp)
    case _ => exact absurd h (by simp)

/-- Every scanned task entry carries its own match, with the completion flag
computed from the checkbox character. -/
theorem mem_pyTasks (s : List Char) (t : TaskEntry) (ht : t ∈ pyTasks s) :
    t.m ∈ findTaskMatches s ∧ t.completed = (t.m.g2 == 'x' || t.m.g2 == 'X') := by
  unfold pyTasks at ht
  obtain ⟨m0, hm0, heq⟩ := List.mem_map.mp ht
  subst heq
  exact ⟨hm0, rfl⟩

/-- C3 counterexample: on `"- [ ]  Task\n"` (two spaces before the text) the
claim as stated predicts `"- [x]  Task\n"` — only the bracket character
changed — but `complete_task` rewrites the line to `"- [x] Task\n"`,
normalising the whitespace around the checkbox marker. -/
theorem complete_task_rewrite_counterexample :
    newContentOf (completeTaskCore (("- [ ]  Task\n").toList) (("Task").toList))
      = some (("- [x] Task\n").toList)
    ∧ (("- [x] Task\n").toList) ≠ (("- [x]  Task\n").toList) := by
  decide

/-- C3 (amended): when `complete_task` succeeds, the file prefix before the
match, the suffix after it, the captured leading whitespace `g1` and the task
text `g3` are preserved verbatim, and the matched middle — a dash, optional
whitespace, `[ ]`, optional whitespace — is replaced by the canonical
`- [x] ` marker (so inter-token whitespace is normalised, not preserved). -/
theorem complete_task_rewrite_frame (s ident : List Char) (t : TaskEntry) (c : List Char)
    (h : completeTaskCore s ident = .ok (t, c)) :
    ∃ w2 wj, w2.all pyWS = true ∧ wj.all pyWS = true ∧ t.m.g1.all pyWS = true
      ∧ t.m.g2 = ' '
      ∧ s = s.take t.m.start ++ t.m.g1 ++ ['-'] ++ w2 ++ ['[', t.m.g2, ']'] ++ wj
          ++ t.m.g3 ++ s.drop t.m.stop
      ∧ c = s.take t.m.start ++ t.m.g1 ++ checkboxDone ++ t.m.g3 ++ s.drop t.m.stop := by
  unfold completeTaskCore at h
  by_cases hemp : (pyTasks s).isEmpty = true
  · rw [if_pos hemp] at h
    exact absurd h (by simp)
  · rw [if_neg hemp] at h
    split at h
    case _ e => exact absurd h (by simp)
    case _ t0 hres =>
      rw [Except.ok.injEq, Prod.mk.injEq] at h
      obtain ⟨ht0, hcform⟩ := h
      rw [ht0] at hres hcform
      obtain ⟨hmem, hncomp⟩ := resolveTaskTarget_ok (pyTasks s) ident t hres
      obtain ⟨hmF, hcompEq⟩ := mem_pyTasks s t hmem
      obtain ⟨q, hq⟩ := mem_scanTasks s _ _ t.m hmF
      obtain ⟨hstart, hg2, hg1ws, w2, wj, hw2, hwj, hregion, _⟩ := matchTaskAt_decomp s q t.m hq
      have hg2sp : t.m.g2 = ' ' := by
        have hxz : (t.m.g2 == 'x' || t.m.g2 == 'X') = false := by rw [← hcompEq]; exact hncomp
        simp at hxz
        rcases hg2 with h1 | h2 | h3
        · exact h1
        · exact absurd h2 hxz.1
        · exact absurd h3 hxz.2
      have hs : s = s.take t.m.start ++ t.m.g1 ++ ['-'] ++ w2 ++ ['[', t.m.g2, ']'] ++ wj
          ++ t.m.g3 ++ s.drop t.m.stop := by
        conv_lhs => rw [← List.take_append_drop t.m.start s]
        rw [hstart, hregion]
        simp
      exact ⟨w2, wj, hw2, hwj, hg1ws, hg2sp, hs, hcform.symm⟩

theorem complete_task_rewrite_frame_witness :
    ∃ w2 wj, w2.all pyWS = true ∧ wj.all pyWS = true
      ∧ (([] : List Char)).all pyWS = true
      ∧ ' ' = ' '
      ∧ (("- [ ]  Task\n").toList)
          = (("- [ ]  Task\n").toList).take 0 ++ ([] : List Char) ++ ['-'] ++ w2
            ++ ['[', ' ', ']'] ++ wj ++ (("Task").toList) ++ (("- [ ]  Task\n").toList).drop 11
      ∧ (("- [x] Task\n").toList)
          = (("- [ ]  Task\n").toList).take 0 ++ ([] : List Char) ++ checkboxDone
            ++ (("Task").toList) ++ (("- [ ]  Task\n").toList).drop 11 :=
  complete_task_rewrite_frame (("- [ ]  Task\n").toList) (("Task").toList)
    ⟨⟨[], ' ', ("Task").toList, 0, 11⟩, 1, ("Task").toList, false⟩
    (("- [x] Task\n").toList) (by decide)

/-! ### Filesystem, frontmatter and CRUD lemmas -/

theorem takeWhile_append_stop {α : Type} (p : α → Bool) (xs : List α) (y : α) (ys : List α)
    (hall : xs.all p = true) (hy : p y = false) :
    (xs ++ y :: ys).takeWhile p = xs := by
  induction xs with
  | nil => simp [List.takeWhile_cons, hy]
  | cons a l ih =>
    simp only [List.all_cons, Bool.and_eq_true] at hall
    simp [List.takeWhile_cons, hall.1, ih hall.2]

theorem dropWhile_append_stop {α : Type} (p : α → Bool) (xs : List α) (y : α) (ys : List α)
    (hall : xs.all p = true) (hy : p y = false) :
    (xs ++ y :: ys).dropWhile p = y :: ys := by
  induction xs with
  | nil => simp [List.dropWhile_cons, hy]
  | cons a l ih =>
    simp only [List.all_cons, Bool.and_eq_true] at hall
    simp [List.dropWhile_cons, hall.1, ih hall.2]

/-- No piece produced by `splitOn` contains the separator. -/
theorem splitOn_no_sep (x : Char) (l : List Char) :
    ∀ piece ∈ l.splitOn x, x ∉ piece := by
  induction l with
  | nil =>
    intro piece hp
    simp [List.splitOn_nil] at hp
    simp [hp]
  | cons a l ih =>
    intro piece hp
    rw [show (a :: l).splitOn x = (a :: l).splitOnP (· == x) from rfl,
      List.splitOnP_cons] at hp
    by_cases hax : (a == x) = true
    · rw [if_pos hax] at hp
      rcases List.mem_cons.mp hp with h1 | h2
      · simp [h1]
      · exact ih piece h2
    · rw [if_neg hax] at hp
      cases hsp : l.splitOnP (· == x) with
      | nil => exact absurd hsp (List.splitOnP_ne_nil _ l)
      | cons hd tl =>
        rw [hsp] at hp
        simp only [List.modifyHead] at hp
        rcases List.mem_cons.mp hp with h1 | h2
        · subst h1
          intro hmem
          rcases List.mem_cons.mp hmem with h3 | h4
          · exact hax (by simp [h3])
          · exact ih hd (by rw [show l.splitOn x = l.splitOnP (· == x) from rfl, hsp]; simp) h4
        · exact ih piece (by rw [show l.splitOn x = l.splitOnP (· == x) from rfl, hsp]; simp [h2])

theorem lookup_writeAssoc_self (fsf : List (List String × Option String))
    (key : List String) (c : String) :
    (writeAssoc fsf key c).lookup key = some (some c) := by
  induction fsf with
  | nil => simp [writeAssoc, List.lookup]
  | cons kv rest ih =>
    obtain ⟨k, v⟩ := kv
    by_cases hk : (k == key) = true
    · simp only [writeAssoc, hk, if_true]
      have hk2 : (key == k) = true := by
        simp at hk
        simp [hk]
      simp [List.lookup, hk2]
    · simp only [writeAssoc, hk, if_false]
      have hk2 : (key == k) = false := by
        simp at hk ⊢; exact fun h => hk h.symm
      simp [List.lookup, hk2, ih]

/-- Content whose first line is not a boundary has no header: `loads` returns
empty metadata and the content verbatim. -/
theorem fmLoads_no_header (c : String) (h : hasHeaderStart c = false) :
    fmLoads c = .ok ([], c) := by
  unfold hasHeaderStart at h
  unfold fmLoads
  cases hsp : c.data.splitOn '\n' with
  | nil => rfl
  | cons l0 rest =>
    rw [hsp] at h
    dsimp only at h
    simp [h]

/-- C9: whenever `complete_task` fails — path traversal, missing or
unreadable note, or any task-resolution error — the file store is returned
unchanged: every failing branch precedes the atomic write. -/
theorem complete_task_error_no_write (vault : List String) (fs : VaultFS)
    (path ident : String) (e : CTErr)
    (h : (completeTaskFS vault fs path ident).1 = .error e) :
    (completeTaskFS vault fs path ident).2 = fs := by
  cases hv : validatePath vault path with
  | error e2 => simp [completeTaskFS, hv]
  | ok full =>
    cases hex : fsExists fs (full.drop vault.length) with
    | false => simp [completeTaskFS, hv, hex]
    | true =>
      cases hl : fs.files.lookup (full.drop vault.length) with
      | none => simp [completeTaskFS, hv, hex, hl]
      | some oc =>
        cases oc with
        | none => simp [completeTaskFS, hv, hex, hl]
        | some content =>
          cases hc : completeTaskCore content.data ident.data with
          | error e3 => simp [completeTaskFS, hv, hex, hl, hc]
          | ok pr =>
            obtain ⟨t, newC⟩ := pr
            simp [completeTaskFS, hv, hex, hl, hc] at h

theorem complete_task_error_no_write_witness :
    (completeTaskFS ["v"] ⟨[], []⟩ "../x" "1").2 = ⟨[], []⟩ :=
  complete_task_error_no_write ["v"] ⟨[], []⟩ "../x" "1" .path (by decide)

/-- C7: `load_preferences` as a three-way case split on the fixed path
`_jasque/preferences.md` — a readable file with a malformed header block
raises `PreferencesParseError`; an absent file with the containing folder
present writes the fixed template and returns the absence signal (the write
is not re-read); an absent containing folder returns the absence signal with
the store untouched. -/
theorem load_preferences_cases (fs : VaultFS) :
    (∀ content, fs.files.lookup ["_jasque", "preferences.md"] = some (some content) →
      ∀ e, fmLoads content = .error e →
        loadPreferences fs = (.error .prefsParse, fs))
    ∧ (fsExists fs ["_jasque", "preferences.md"] = false →
        fsExists fs ["_jasque"] = true →
        loadPreferences fs
          = (.ok none, fsWriteFile fs ["_jasque", "preferences.md"] prefsTemplate))
    ∧ (fsExists fs ["_jasque", "preferences.md"] = false →
        fsExists fs ["_jasque"] = false →
        loadPreferences fs = (.ok none, fs)) := by
  refine ⟨?_, ?_, ?_⟩
  · intro content hl e he
    have hex : fsExists fs ["_jasque", "preferences.md"] = true := by
      simp [fsExists, hl]
    simp [loadPreferences, hex, hl, he]
  · intro h1 h2
    simp [loadPreferences, h1, h2]
  · intro h1 h2
    simp [loadPreferences, h1, h2]

theorem load_preferences_cases_witness :
    loadPreferences ⟨[(["_jasque", "preferences.md"], some "---\nbad\n---\nx")], []⟩
      = (.error .prefsParse, ⟨[(["_jasque", "preferences.md"], some "---\nbad\n---\nx")], []⟩)
    ∧ loadPreferences ⟨[], [["_jasque"]]⟩
      = (.ok none, fsWriteFile ⟨[], [["_jasque"]]⟩ ["_jasque", "preferences.md"] prefsTemplate)
    ∧ loadPreferences ⟨[], []⟩ = (.ok none, ⟨[], []⟩) :=
  ⟨(load_preferences_cases ⟨[(["_jasque", "preferences.md"], some "---\nbad\n---\nx")], []⟩).1
      "---\nbad\n---\nx" (by decide) .syntaxErr (by decide),
    (load_preferences_cases ⟨[], [["_jasque"]]⟩).2.1 (by decide) (by decide),
    (load_preferences_cases ⟨[], []⟩).2.2 (by decide) (by decide)⟩

theorem parseHeaderLine_mk (k v : String) (hwf : WfPair (k, v)) :
    parseHeaderLine (fmLine (k, v)) = some (k, v) := by
  obtain ⟨hk1, hk2, hv1, hv2⟩ := hwf
  unfold parseHeaderLine fmLine
  have hany : (k.data ++ ':' :: ' ' :: v.data).any (fun c => c == ':') = true := by
    simp
  rw [if_pos hany]
  have ht : (k.data ++ ':' :: ' ' :: v.data).takeWhile (fun c => c != ':') = k.data :=
    takeWhile_append_stop _ k.data ':' (' ' :: v.data) hk1 (by simp)
  have hd : (k.data ++ ':' :: ' ' :: v.data).dropWhile (fun c => c != ':') = ':' :: ' ' :: v.data :=
    dropWhile_append_stop _ k.data ':' (' ' :: v.data) hk1 (by simp)
  rw [ht, hd]
  simp only [List.tail_cons, List.dropWhile_cons]
  simp [hv2]
  exact ⟨rfl, rfl⟩

theorem parseHeaderLines_map (md : List (String × String))
    (hwf : ∀ kv ∈ md, WfPair kv) :
    parseHeaderLines (md.map fmLine) = some md := by
  induction md with
  | nil => rfl
  | cons kv rest ih =>
    obtain ⟨k, v⟩ := kv
    simp only [List.map_cons, parseHeaderLines]
    rw [parseHeaderLine_mk k v (hwf _ (by simp)), ih (fun y hy => hwf y (by simp [hy]))]

/-- A line containing a colon is never a header boundary. -/
theorem colon_not_boundary (l : List Char) (h : l.any (fun c => c == ':') = true) :
    isBoundaryLine l = false := by
  by_contra hb
  rw [Bool.not_eq_false] at hb
  unfold isBoundaryLine at hb
  rw [Bool.and_eq_true] at hb
  obtain ⟨c, hc, hcc⟩ := List.any_eq_true.mp h
  rw [beq_iff_eq] at hcc
  subst hcc
  rw [← List.takeWhile_append_dropWhile (fun c => c == '-') l] at hc
  rcases List.mem_append.mp hc with h1 | h2
  · have hdash := List.mem_takeWhile_imp h1
    simp at hdash
  · have hws := List.all_eq_true.mp hb.2 _ h2
    simp [pyWS] at hws

theorem parseHeaderLine_wf (l : List Char) (kv : String × String)
    (hp : parseHeaderLine l = some kv) (hnl : ('\n') ∉ l) :
    WfPair kv := by
  unfold parseHeaderLine at hp
  by_cases hany : l.any (fun c => c == ':') = true
  · rw [if_pos hany] at hp
    injection hp with hp
    subst hp
    refine ⟨?_, ?_, ?_, ?_⟩
    · exact takeWhile_all _ l
    · refine List.all_eq_true.mpr fun a ha => ?_
      have hmem : a ∈ l := (List.takeWhile_sublist _).subset ha
      have hne : a ≠ '\n' := fun hEq => hnl (hEq ▸ hmem)
      simpa using hne
    · refine List.all_eq_true.mpr fun a ha => ?_
      have hmem : a ∈ l := by
        have h1 := (List.dropWhile_sublist (fun c => c == ' ')).subset ha
        have h2 := List.tail_sublist (l.dropWhile (fun c => c != ':'))
        exact (List.dropWhile_sublist _).subset (h2.subset h1)
      have hne : a ≠ '\n' := fun hEq => hnl (hEq ▸ hmem)
      simpa using hne
    · exact List.dropWhile_idempotent _ _
  · rw [if_neg hany] at hp
    exact absurd hp (by simp)

theorem parseHeaderLines_wf : ∀ (lines : List (List Char)) (md : List (String × String)),
    parseHeaderLines lines = some md →
    (∀ l ∈ lines, ('\n') ∉ l) → ∀ kv ∈ md, WfPair kv := by
  intro lines
  induction lines with
  | nil =>
    intro md h _ kv hkv
    simp [parseHeaderLines] at h
    subst h
    simp at hkv
  | cons l rest ih =>
    intro md h hnl kv hkv
    simp only [parseHeaderLines] at h
    cases hpl : parseHeaderLine l with
    | none => rw [hpl] at h; simp at h
    | some kv0 =>
      rw [hpl] at h
      cases hrest : parseHeaderLines rest with
      | none => rw [hrest] at h; simp at h
      | some md0 =>
        rw [hrest] at h
        simp at h
        subst h
        rcases List.mem_cons.mp hkv with h1 | h2
        · subst h1
          exact parseHeaderLine_wf l kv hpl (hnl l (by simp))
        · exact ih md0 hrest (fun y hy => hnl y (by simp [hy])) kv h2

/-- Every header pair produced by the modelled `loads` is well-formed. -/
theorem fmLoads_wf (s : String) (md : List (String × String)) (b : String)
    (h : fmLoads s = .ok (md, b)) : ∀ kv ∈ md, WfPair kv := by
  unfold fmLoads at h
  cases hsp : s.data.splitOn '\n' with
  | nil =>
    rw [hsp] at h
    simp at h
    obtain ⟨h1, _⟩ := h
    subst h1
    intro kv hkv
    simp at hkv
  | cons l0 rest =>
    rw [hsp] at h
    dsimp only at h
    by_cases hb : isBoundaryLine l0 = true
    · rw [if_pos hb] at h
      cases hdw : rest.dropWhile (fun l => !isBoundaryLine l) with
      | nil =>
        rw [hdw] at h
        simp at h
        obtain ⟨h1, _⟩ := h
        subst h1
        intro kv hkv
        simp at hkv
      | cons hd body =>
        rw [hdw] at h
        cases hph : parseHeaderLines (rest.takeWhile (fun l => !isBoundaryLine l)) with
        | none => rw [hph] at h; exact absurd h (by simp)
        | some md0 =>
          rw [hph] at h
          simp at h
          obtain ⟨h1, _⟩ := h
          subst h1
          intro kv hkv
          refine parseHeaderLines_wf _ md0 hph ?_ kv hkv
          intro l hl
          have hl2 : l ∈ rest := (List.takeWhile_sublist _).subset hl
          have hl3 : l ∈ s.data.splitOn '\n' := by
            rw [hsp]; exact List.mem_cons_of_mem _ hl2
          exact splitOn_no_sep '\n' s.data l hl3
    · rw [if_neg hb] at h
      simp at h
      obtain ⟨h1, _⟩ := h
      subst h1
      intro kv hkv
      simp at hkv

/-- Serialise-then-parse is the identity on well-formed headers and any body:
the modelled `loads` undoes the modelled `dumps` exactly. -/
theorem fmDumps_roundtrip (md : List (String × String)) (b : String)
    (hwf : ∀ kv ∈ md, WfPair kv) : fmLoads (fmDumps md b) = .ok (md, b) := by
  have hpieces : ∀ piece ∈ ([['-', '-', '-']] ++ md.map fmLine ++ [['-', '-', '-']]
      ++ b.data.splitOn '\n'), ('\n') ∉ piece := by
    intro piece hp
    simp only [List.mem_append, List.mem_singleton, List.mem_map] at hp
    rcases hp with ((h1 | ⟨kv, hkv, h2⟩) | h3) | h4
    · subst h1; decide
    · subst h2
      obtain ⟨_, hk2, hv1, _⟩ := hwf kv hkv
      unfold fmLine
      intro hmem
      rcases List.mem_append.mp hmem with ha | hb2
      · have := List.all_eq_true.mp hk2 _ ha
        simp at this
      · rcases List.mem_cons.mp hb2 with hc | hd2
        · exact absurd hc (by decide)
        · rcases List.mem_cons.mp hd2 with he | hf
          · exact absurd he (by decide)
          · have := List.all_eq_true.mp hv1 _ hf
            simp at this
    · subst h3; decide
    · exact splitOn_no_sep '\n' b.data piece h4
  have hsplit : (fmDumps md b).data.splitOn '\n'
      = [['-', '-', '-']] ++ md.map fmLine ++ [['-', '-', '-']] ++ b.data.splitOn '\n' :=
    List.splitOn_intercalate _ '\n' hpieces (by simp)
  have hform : [['-', '-', '-']] ++ md.map fmLine ++ [['-', '-', '-']] ++ b.data.splitOn '\n'
      = ['-', '-', '-'] :: (md.map fmLine ++ ['-', '-', '-'] :: b.data.splitOn '\n') := by
    simp
  have hnb : ∀ l0 ∈ md.map fmLine, (!isBoundaryLine l0) = true := by
    intro l0 hl0
    obtain ⟨kv, _, h2⟩ := List.mem_map.mp hl0
    subst h2
    rw [colon_not_boundary]
    · rfl
    · simp [fmLine]
  have hallnb : (md.map fmLine).all (fun l0 => !isBoundaryLine l0) = true :=
    List.all_eq_true.mpr hnb
  unfold fmLoads
  rw [hsplit, hform]
  dsimp only
  rw [if_pos (show isBoundaryLine ['-', '-', '-'] = true from rfl)]
  rw [dropWhile_append_stop _ _ _ _ hallnb (by rfl),
    takeWhile_append_stop _ _ _ _ hallnb (by rfl),
    parseHeaderLines_map md hwf]
  dsimp only
  rw [List.intercalate_splitOn]
  rfl

/-- `read_note` on a validated path whose relative key holds readable content
returns exactly the parsed view of that content. -/
theorem readNote_found (vault : List String) (fs2 : VaultFS) (q : String)
    (full : List String) (c : String)
    (hval : validatePath vault q = .ok full)
    (hlk : fs2.files.lookup (full.drop vault.length) = some (some c)) :
    readNote vault fs2 q
      = .ok { path := q, title := noteTitle (lastSeg full) c,
              content := fmBody c, tags := noteTags c, metadata := fmMeta c } := by
  have hfse : fsExists fs2 (full.drop vault.length) = true := by
    simp [fsExists, hlk]
  unfold readNote
  rw [hval]
  try dsimp only
  rw [hfse]
  try dsimp only
  rw [hlk]
  try dsimp only
  cases hfm : fmLoads c with
  | ok pr =>
    obtain ⟨prmd, prb⟩ := pr
    simp [fmBody, fmMeta, hfm]
  | error e2 => simp [fmBody, fmMeta, hfm]

/-- C5: creating a note from headerless content and reading it back (which
`create_note` itself does) yields a body equal to the supplied content, empty
metadata, and a title equal to the stem of the created note's filename (the
final segment of `p`, with `.md` appended when missing). -/
theorem create_read_roundtrip (vault : List String) (fs : VaultFS) (p c : String)
    (full : List String)
    (hval : validatePath vault (withMdSuffix p) = .ok full)
    (hex : fsExists fs (full.drop vault.length) = false)
    (hnh : hasHeaderStart c = false) :
    ∃ fs2, createNote vault fs p c none
      = .ok ({ path := withMdSuffix p, title := (pyStem (lastSeg full).data).asString,
               content := c, tags := noteTags c, metadata := [] }, fs2) := by
  have hfm := fmLoads_no_header c hnh
  have htitle : noteTitle (lastSeg full) c = (pyStem (lastSeg full).data).asString := by
    unfold noteTitle
    rw [hfm]
    rfl
  have hbody : fmBody c = c := by unfold fmBody; rw [hfm]
  have hmeta : fmMeta c = [] := by unfold fmMeta; rw [hfm]
  refine ⟨fsWriteFile
      (if !fsExists fs ((full.drop vault.length).dropLast)
        then fsMakeDirs fs ((full.drop vault.length).dropLast) else fs)
      (full.drop vault.length) c, ?_⟩
  unfold createNote
  try dsimp only
  rw [hval]
  try dsimp only
  rw [hex]
  try dsimp only
  rw [readNote_found vault _ (withMdSuffix p) full c hval (lookup_writeAssoc_self _ _ _)]
  try dsimp only [Except.map]
  rw [htitle, hbody, hmeta]
  simp

theorem create_read_roundtrip_witness :
    ∃ fs2, createNote ["v"] ⟨[], []⟩ "notes/a" "hello body" none
      = .ok ({ path := withMdSuffix "notes/a",
               title := (pyStem (lastSeg ["v", "notes", "a.md"]).data).asString,
               content := "hello body", tags := noteTags "hello body",
               metadata := [] }, fs2) :=
  create_read_roundtrip ["v"] ⟨[], []⟩ "notes/a" "hello body" ["v", "notes", "a.md"]
    (by decide) (by decide) (by decide)

/-- C6: updating an existing note whose header parses (with `title: X` among
its fields) replaces only the body: the update returns a fresh read whose
metadata is exactly the old header — still containing `title: X` — and whose
body is the new content. -/
theorem update_preserves_header (vault : List String) (fs : VaultFS) (p b2 : String)
    (full : List String) (existing : String) (md : List (String × String)) (b1 : String)
    (x : String)
    (hval : validatePath vault p = .ok full)
    (hl : fs.files.lookup (full.drop vault.length) = some (some existing))
    (hne : existing ≠ "")
    (hfm : fmLoads existing = .ok (md, b1))
    (hx : ("title", x) ∈ md) :
    ∃ nc fs2, updateNote vault fs p b2 true = .ok (nc, fs2)
      ∧ nc.metadata = md ∧ ("title", x) ∈ nc.metadata ∧ nc.content = b2 := by
  have hwf := fmLoads_wf existing md b1 hfm
  have hrt := fmDumps_roundtrip md b2 hwf
  have hfse : fsExists fs (full.drop vault.length) = true := by
    simp [fsExists, hl]
  have hnee : (existing == "") = false := by
    simp [hne]
  have hmain : updateNote vault fs p b2 true
      = .ok ({ path := p, title := noteTitle (lastSeg full) (fmDumps md b2),
               content := fmBody (fmDumps md b2), tags := noteTags (fmDumps md b2),
               metadata := fmMeta (fmDumps md b2) },
          fsWriteFile fs (full.drop vault.length) (fmDumps md b2)) := by
    unfold updateNote
    try dsimp only
    rw [hval]
    try dsimp only
    rw [hfse]
    try dsimp only
    rw [if_pos rfl, hl]
    try dsimp only
    rw [hnee]
    try dsimp only
    rw [hfm]
    try dsimp only
    rw [readNote_found vault _ p full (fmDumps md b2) hval (lookup_writeAssoc_self _ _ _)]
    try dsimp only [Except.map]
    simp
  have hbody : fmBody (fmDumps md b2) = b2 := by unfold fmBody; rw [hrt]
  have hmeta : fmMeta (fmDumps md b2) = md := by unfold fmMeta; rw [hrt]
  refine ⟨_, _, hmain, ?_, ?_, ?_⟩
  · exact hmeta
  · rw [hmeta]; exact hx
  · exact hbody

theorem update_preserves_header_witness :
    ∃ nc fs2, updateNote ["v"] ⟨[(["t.md"], some "---\ntitle: X\n---\n\nB1")], []⟩
        "t.md" "# New" true = .ok (nc, fs2)
      ∧ nc.metadata = [("title", "X")] ∧ ("title", "X") ∈ nc.metadata ∧ nc.content = "# New" :=
  update_preserves_header ["v"] ⟨[(["t.md"], some "---\ntitle: X\n---\n\nB1")], []⟩
    "t.md" "# New" ["v", "t.md"] "---\ntitle: X\n---\n\nB1" [("title", "X")] "\nB1" "X"
    (by decide) (by decide) (by decide) (by decide) (by decide)

/-! ### Query engine lemmas and claim theorems -/

theorem walkGo_stop {R : Type} (perFile : String → String → Option String → List R → (List R × Nat))
    (limit : Nat) (fuel : Nat) (entries : List Entry) (pfx : String) (res : List R)
    (h : res.length ≥ limit) : walkGo perFile limit fuel entries pfx res = (res, 0) := by
  cases fuel with
  | zero => rfl
  | succ f =>
    cases entries with
    | nil => rfl
    | cons e rest => unfold walkGo; rw [if_pos h]

theorem walkGo_len {R : Type} (perFile : String → String → Option String → List R → (List R × Nat))
    (limit : Nat)
    (hper : ∀ pfx name content (res : List R), res.length < limit →
      ((perFile pfx name content res).1).length ≤ limit) :
    ∀ fuel entries pfx res, res.length ≤ limit →
      ((walkGo perFile limit fuel entries pfx res).1).length ≤ limit := by
  intro fuel
  induction fuel with
  | zero => intro entries pfx res h; simpa [walkGo] using h
  | succ f ih =>
    intro entries pfx res h
    cases entries with
    | nil => simpa [walkGo] using h
    | cons e rest =>
      by_cases h0 : res.length ≥ limit
      · rw [walkGo_stop perFile limit _ _ _ _ h0]; simpa using h
      · cases e with
        | dir name sub =>
          simp only [walkGo]
          rw [if_neg h0]
          try dsimp only
          by_cases hh : isHiddenName name = true
          · rw [if_pos hh]; exact ih rest pfx res h
          · rw [if_neg hh]
            try dsimp only
            exact ih rest pfx _ (ih sub (relJoin pfx name) res h)
        | file name content =>
          simp only [walkGo]
          rw [if_neg h0]
          try dsimp only
          by_cases hh : isHiddenName name = true
          · rw [if_pos hh]; exact ih rest pfx res h
          · rw [if_neg hh]
            by_cases hmd : (!(".md").data.isSuffixOf name.data) = true
            · rw [if_pos hmd]; exact ih rest pfx res h
            · rw [if_neg hmd]
              try dsimp only
              exact ih rest pfx _ (hper pfx name content res (Nat.not_le.mp h0))

theorem walkGo_inv {R : Type} (P : R → Prop)
    (perFile : String → String → Option String → List R → (List R × Nat)) (limit : Nat)
    (hper : ∀ pfx name content (res : List R), (∀ r ∈ res, P r) →
      ∀ r ∈ (perFile pfx name content res).1, P r) :
    ∀ fuel entries pfx res, (∀ r ∈ res, P r) →
      ∀ r ∈ (walkGo perFile limit fuel entries pfx res).1, P r := by
  intro fuel
  induction fuel with
  | zero => intro entries pfx res h; simpa [walkGo] using h
  | succ f ih =>
    intro entries pfx res h
    cases entries with
    | nil => simpa [walkGo] using h
    | cons e rest =>
      by_cases h0 : res.length ≥ limit
      · rw [walkGo_stop perFile limit _ _ _ _ h0]; simpa using h
      · cases e with
        | dir name sub =>
          simp only [walkGo]
          rw [if_neg h0]
          try dsimp only
          by_cases hh : isHiddenName name = true
          · rw [if_pos hh]; exact ih rest pfx res h
          · rw [if_neg hh]
            try dsimp only
            exact ih rest pfx _ (ih sub (relJoin pfx name) res h)
        | file name content =>
          simp only [walkGo]
          rw [if_neg h0]
          try dsimp only
          by_cases hh : isHiddenName name = true
          · rw [if_pos hh]; exact ih rest pfx res h
          · rw [if_neg hh]
            by_cases hmd : (!(".md").data.isSuffixOf name.data) = true
            · rw [if_pos hmd]; exact ih rest pfx res h
            · rw [if_neg hmd]
              try dsimp only
              exact ih rest pfx _ (hper pfx name content res h)

theorem taskFold_len (rel : String) (inc : Bool) (limit : Nat) :
    ∀ ts (res : List TaskHit), res.length ≤ limit →
      (taskFold rel inc limit ts res).length ≤ limit := by
  intro ts
  induction ts with
  | nil => intro res h; simpa [taskFold] using h
  | cons t ts ih =>
    intro res h
    unfold taskFold
    by_cases h0 : res.length ≥ limit
    · rw [if_pos h0]; exact h
    · rw [if_neg h0]
      by_cases hc : (!inc && t.completed) = true
      · rw [if_pos hc]; exact ih res h
      · rw [if_neg hc]
        refine ih _ ?_
        have hlt := Nat.not_le.mp h0
        simp only [List.length_append, List.length_cons, List.length_nil]
        omega

theorem searchFile_len (q : List Char) (limit : Nat) :
    ∀ pfx name content (res : List SearchRes), res.length < limit →
      ((searchFile q pfx name content res).1).length ≤ limit := by
  intro pfx name content res h
  cases content with
  | none => simpa [searchFile] using Nat.le_of_lt h
  | some c =>
    unfold searchFile
    dsimp only
    split <;> simp <;> omega

theorem tagsFile_len (tset : List String) (limit : Nat) :
    ∀ pfx name content (res : List NoteHit), res.length < limit →
      ((tagsFile tset pfx name content res).1).length ≤ limit := by
  intro pfx name content res h
  cases content with
  | none => simpa [tagsFile] using Nat.le_of_lt h
  | some c =>
    unfold tagsFile
    dsimp only
    by_cases ha : (tset.any (fun t =>
        ((noteTags c).map (fun s => (asciiLowerL s.data).asString)).contains t)) = true
    · rw [if_pos ha]; simp; omega
    · rw [if_neg ha]; simpa using Nat.le_of_lt h

theorem taskFile_len (inc : Bool) (limit : Nat) :
    ∀ pfx name content (res : List TaskHit), res.length < limit →
      ((taskFile inc limit pfx name content res).1).length ≤ limit := by
  intro pfx name content res h
  cases content with
  | none => simpa [taskFile] using Nat.le_of_lt h
  | some c =>
    unfold taskFile
    exact taskFold_len _ inc limit _ res (Nat.le_of_lt h)

theorem backFile_len (nn orig : String) (limit : Nat) :
    ∀ pfx name content (res : List BacklinkRes), res.length < limit →
      ((backFile nn orig pfx name content res).1).length ≤ limit := by
  intro pfx name content res h
  unfold backFile
  by_cases ho : (relJoin pfx name == orig) = true
  · rw [if_pos ho]; exact Nat.le_of_lt h
  · rw [if_neg ho]
    cases content with
    | none => simpa using Nat.le_of_lt h
    | some c =>
      dsimp only
      by_cases hl : ((wikiScan c.data).contains nn.data) = true
      · rw [if_pos hl]; simp; omega
      · rw [if_neg hl]; simpa using Nat.le_of_lt h

/-- C4 (amended): every traversal's result count is bounded by `limit`, and
`search_text`, `find_by_tag`, `list_tasks` and `get_backlinks` stop early —
once the collected results reach the limit the walk returns immediately with
zero further file reads.  `find_by_name` only satisfies the count bound: its
walk takes no limit and reads every readable `.md` file before truncating
(see the counterexample). -/
theorem traversal_limit (vault : List String) (tree : List Entry)
    (q : String) (tags : List String) (path : Option String) (limit : Nat) :
    (∀ r n, searchText vault tree q path limit = .ok (r, n) → r.length ≤ limit)
    ∧ (∀ r n, findByTag vault tree tags path limit = .ok (r, n) → r.length ≤ limit)
    ∧ (∀ inc r n, listTasks vault tree path inc limit = .ok (r, n) → r.length ≤ limit)
    ∧ (∀ r n, findByName vault tree q path limit = .ok (r, n) → r.length ≤ limit)
    ∧ (∀ r n, getBacklinks vault tree q limit = .ok (r, n) → r.length ≤ limit)
    ∧ (∀ (ql : List Char) entries pfx res, res.length ≥ limit →
        searchGo ql limit entries pfx res = (res, 0))
    ∧ (∀ (ts : List String) entries pfx res, res.length ≥ limit →
        tagsGo ts limit entries pfx res = (res, 0))
    ∧ (∀ (inc : Bool) entries pfx res, res.length ≥ limit →
        tasksGo inc limit entries pfx res = (res, 0))
    ∧ (∀ (nn orig : String) entries pfx res, res.length ≥ limit →
        backGo nn orig limit entries pfx res = (res, 0)) := by
  refine ⟨?_, ?_, ?_, ?_, ?_,
    fun ql entries pfx res h => walkGo_stop _ limit _ entries pfx res h,
    fun ts entries pfx res h => walkGo_stop _ limit _ entries pfx res h,
    fun inc entries pfx res h => walkGo_stop _ limit _ entries pfx res h,
    fun nn orig entries pfx res h => walkGo_stop _ limit _ entries pfx res h⟩
  · intro r n h
    unfold searchText at h
    cases hv : validatePath vault (path.getD "") with
    | error e => rw [hv] at h; exact absurd h (by simp)
    | ok full =>
      rw [hv] at h
      dsimp only at h
      rw [Except.ok.injEq, Prod.mk.injEq] at h
      rw [← h.1]
      exact walkGo_len _ limit (searchFile_len _ limit) _ _ _ [] (by simp)
  · intro r n h
    unfold findByTag at h
    cases hv : validatePath vault (path.getD "") with
    | error e => rw [hv] at h; exact absurd h (by simp)
    | ok full =>
      rw [hv] at h
      dsimp only at h
      rw [Except.ok.injEq, Prod.mk.injEq] at h
      rw [← h.1]
      exact walkGo_len _ limit (tagsFile_len _ limit) _ _ _ [] (by simp)
  · intro inc r n h
    unfold listTasks at h
    cases hv : validatePath vault (path.getD "") with
    | error e => rw [hv] at h; exact absurd h (by simp)
    | ok full =>
      rw [hv] at h
      dsimp only at h
      rw [Except.ok.injEq, Prod.mk.injEq] at h
      rw [← h.1]
      exact walkGo_len _ limit (taskFile_len inc limit) _ _ _ [] (by simp)
  · intro r n h
    unfold findByName at h
    cases hv : validatePath vault (path.getD "") with
    | error e => rw [hv] at h; exact absurd h (by simp)
    | ok full =>
      rw [hv] at h
      dsimp only at h
      rw [Except.ok.injEq, Prod.mk.injEq] at h
      rw [← h.1]
      exact Nat.le_trans (List.length_take_le _ _) (Nat.le_refl _)
  · intro r n h
    unfold getBacklinks at h
    cases hv : validatePath vault q with
    | error e => rw [hv] at h; exact absurd h (by simp)
    | ok full =>
      rw [hv] at h
      dsimp only at h
      by_cases ht : treeExists tree (full.drop vault.length) = true
      · rw [ht] at h
        rw [if_neg (by simp)] at h
        rw [Except.ok.injEq, Prod.mk.injEq] at h
        rw [← h.1]
        exact walkGo_len _ limit (backFile_len _ _ limit) _ _ _ [] (by simp)
      · rw [Bool.not_eq_true] at ht
        rw [ht] at h
        exact absurd h (by simp)

theorem traversal_limit_witness :
    ([⟨"a.md", "a", "x", 1⟩] : List SearchRes).length ≤ 1
    ∧ searchGo ("x").data 1 [Entry.file "b.md" (some "x")] ""
        [(⟨"a.md", "a", "x", 1⟩ : SearchRes)] = ([⟨"a.md", "a", "x", 1⟩], 0) :=
  ⟨(traversal_limit ["v"] [Entry.file "a.md" (some "x")] "x" [] none 1).1
      [⟨"a.md", "a", "x", 1⟩] 1 (by decide),
    (traversal_limit ["v"] [Entry.file "a.md" (some "x")] "x" [] none 1).2.2.2.2.2.1
      ("x").data [Entry.file "b.md" (some "x")] "" [⟨"a.md", "a", "x", 1⟩] (by decide)⟩

/-- C4 counterexample: with `limit = 0` a traversal that stops early performs
no file reads at all (`search_text` does exactly that), but `find_by_name`
still reads the one readable `.md` file — its read count is 1, beyond the
already-reached limit — because its walk has no limit check and truncation
happens only afterwards. -/
theorem traversal_limit_counterexample :
    findByName ["v"] [Entry.file "a.md" (some "x")] "a" none 0 = .ok ([], 1)
    ∧ searchText ["v"] [Entry.file "a.md" (some "x")] "a" none 0 = .ok ([], 0) := by
  decide

/-- C8 (amended): a backlink result's relative path is never equal to the
`note_path` string the caller supplied — the walk skips exactly that entry.
When `note_path` is the canonical relative path of the note this excludes the
note itself; a non-canonical spelling of the same note (e.g. `./a.md`)
defeats the exclusion (see the counterexample). -/
theorem backlink_never_input (vault : List String) (tree : List Entry)
    (notePath : String) (limit : Nat) (r : List BacklinkRes) (n : Nat)
    (h : getBacklinks vault tree notePath limit = .ok (r, n)) :
    ∀ b ∈ r, b.path ≠ notePath := by
  unfold getBacklinks at h
  cases hv : validatePath vault notePath with
  | error e => rw [hv] at h; exact absurd h (by simp)
  | ok full =>
    rw [hv] at h
    dsimp only at h
    by_cases ht : treeExists tree (full.drop vault.length) = true
    · rw [ht] at h
      rw [if_neg (by simp)] at h
      rw [Except.ok.injEq, Prod.mk.injEq] at h
      rw [← h.1]
      refine walkGo_inv (fun (b : BacklinkRes) => b.path ≠ notePath) _ limit ?_ _ tree "" []
        (by simp)
      intro pfx name content res hres b hb
      unfold backFile at hb
      by_cases ho : (relJoin pfx name == notePath) = true
      · rw [if_pos ho] at hb
        exact hres b hb
      · rw [if_neg ho] at hb
        cases content with
        | none => exact hres b hb
        | some c =>
          dsimp only at hb
          by_cases hl : ((wikiScan c.data).contains
              ((pyStem (lastSeg (pathSegs notePath)).data).asString).data) = true
          · rw [if_pos hl] at hb
            rcases List.mem_append.mp hb with h1 | h2
            · exact hres b h1
            · rcases List.mem_cons.mp h2 with h3 | h4
              · subst h3
                simp at ho
                simpa using ho
              · simp at h4
          · rw [if_neg hl] at hb
            exact hres b hb
    · rw [Bool.not_eq_true] at ht
      rw [ht] at h
      exact absurd h (by simp)

theorem backlink_never_input_witness :
    (⟨"b.md", "b", "link [[a]] here"⟩ : BacklinkRes).path ≠ "a.md" :=
  backlink_never_input ["v"]
    [Entry.file "a.md" (some "[[a]]"), Entry.file "b.md" (some "link [[a]] here")]
    "a.md" 50 [⟨"b.md", "b", "link [[a]] here"⟩] 1 (by decide)
    ⟨"b.md", "b", "link [[a]] here"⟩ (by decide)

/-- C8 counterexample: the exclusion compares the raw input string against
the computed relative path, so the non-canonical spelling `"./a.md"` of the
note `a.md` — which `validate_path` resolves to the very same file — lets the
self-linking target appear in its own backlink results. -/
theorem backlink_self_counterexample :
    getBacklinks ["v"] [Entry.file "a.md" (some "[[a]]")] "./a.md" 50
      = .ok ([⟨"a.md", "a", "[[a]]"⟩], 1)
    ∧ getBacklinks ["v"] [Entry.file "a.md" (some "[[a]]")] "a.md" 50
      = .ok ([], 0) := by
  decide

end Vault
